import Mathlib

/-!
# Verification of the behavior-tree engine in `BehaviorTree/BehaviorTree.py`

A shallow embedding of the tree-execution core: the `NodeState` enum, the
`Node` bookkeeping contract, `Sequence`/`Selector` composite semantics,
`Condition`/`Action` leaves, the process-wide executed-node registry, the
`SnapshotBuilder`, the `BehaviorTree` wrapper, and the debugger's
`_build_snapshot` path-id assignment.

Python object references are modelled by root-relative paths (lists of child
positions) into a pure tree value; the wall clock behind
`time.perf_counter()` is modelled by a duration oracle `dur : Nat → Nat`
giving the duration recorded for the k-th node registered in a tick; the
64-bit hash behind `hash64` is modelled by an arbitrary function
`h : String → Nat` truncated to 64 bits, since the source falls back to
Python's process-seeded built-in `hash` when `xxhash` is unavailable.
-/

namespace BT

/-- `NodeState` from BehaviorTree.py: `IntEnum` with SUCCESS=1, FAILURE=2,
RUNNING=3. -/
inductive NodeState where
  | SUCCESS
  | FAILURE
  | RUNNING
deriving DecidableEq, Repr

/-- Integer value of a `NodeState` member (the `IntEnum` values in the
source). -/
def NodeState.toInt : NodeState → Int
  | .SUCCESS => 1
  | .FAILURE => 2
  | .RUNNING => 3

/-- `.name` of a `NodeState` member, as used for the textual `state` field of
a snapshot record. -/
def NodeState.enumName : NodeState → String
  | .SUCCESS => "SUCCESS"
  | .FAILURE => "FAILURE"
  | .RUNNING => "RUNNING"

/-- A Python value as returned by an Action's work operation: either a
genuine `NodeState` member, or some other value (a plain int, `None`, a
string). `Action.tick` tests membership with `isinstance`, so only the
`state` constructor counts as a `NodeState`. -/
inductive PyVal where
  | state (s : NodeState)
  | intVal (n : Int)
  | noneVal
  | strVal (s : String)
deriving DecidableEq, Repr

/-- The mutable bookkeeping fields every `Node` instance carries
(`Node.__init__`). -/
structure NodeData where
  last_state : Option NodeState
  last_duration_ms : Nat
  accumulated_ms : Nat
  is_active_path : Bool
  exec_index : Nat
  last_tick_id : Int
  path_id : Nat
deriving DecidableEq, Repr

/-- Field values set by `Node.__init__`. -/
def initData : NodeData :=
  { last_state := none, last_duration_ms := 0, accumulated_ms := 0,
    is_active_path := false, exec_index := 0, last_tick_id := -1, path_id := 0 }

/-- The tree of node objects. A `Sequence` carries its persisted cursor
`index` (`Sequence.__init__` sets it to 0); a `Condition` carries the boolean
its `condition()` returns (as `DummyCondition` does); an `Action` carries the
Python value its `action()` returns. -/
inductive Node where
  | Sequence (name : String) (d : NodeData) (index : Nat) (children : List Node)
  | Selector (name : String) (d : NodeData) (children : List Node)
  | Condition (name : String) (d : NodeData) (result : Bool)
  | Action (name : String) (d : NodeData) (result : PyVal)

def Node.name : Node → String
  | .Sequence nm _ _ _ => nm
  | .Selector nm _ _ => nm
  | .Condition nm _ _ => nm
  | .Action nm _ _ => nm

def Node.data : Node → NodeData
  | .Sequence _ d _ _ => d
  | .Selector _ d _ => d
  | .Condition _ d _ => d
  | .Action _ d _ => d

/-- The `node_type` string as the viewer sees it (the class name; the dummy
leaves set it explicitly to "Condition"/"Action"). -/
def Node.node_type : Node → String
  | .Sequence _ _ _ _ => "Sequence"
  | .Selector _ _ _ => "Selector"
  | .Condition _ _ _ => "Condition"
  | .Action _ _ _ => "Action"

def Node.children : Node → List Node
  | .Sequence _ _ _ cs => cs
  | .Selector _ _ cs => cs
  | _ => []

/-- The Sequence cursor (`self.index`); 0 for the other variants, which have
no such field. -/
def Node.seqIndex : Node → Nat
  | .Sequence _ _ i _ => i
  | _ => 0

/-- Replace a node's bookkeeping data, leaving everything else in place. -/
def Node.withData (n : Node) (d : NodeData) : Node :=
  match n with
  | .Sequence nm _ i cs => .Sequence nm d i cs
  | .Selector nm _ cs => .Selector nm d cs
  | .Condition nm _ b => .Condition nm d b
  | .Action nm _ v => .Action nm d v

/-- A root-relative path to a node: the list of child positions followed from
the root. Plays the role of a Python object reference into the tree. -/
abbrev Path := List Nat

/-- Look up the node a path refers to. -/
def nodeAt : Node → Path → Option Node
  | n, [] => some n
  | n, i :: p =>
      match n.children[i]? with
      | some c => nodeAt c p
      | none => none

/-- Total lookup (paths produced by the engine are always valid). -/
def getNode (t : Node) (p : Path) : Node := (nodeAt t p).getD t

def dataAt (t : Node) (p : Path) : NodeData := (getNode t p).data

/-- `p` refers to an actual node of `t`. -/
def validPath (t : Node) (p : Path) : Prop := (nodeAt t p).isSome

instance (t : Node) (p : Path) : Decidable (validPath t p) :=
  inferInstanceAs (Decidable ((nodeAt t p).isSome = true))

/-- Apply `g` to the i-th element of a list, if present. -/
def listUpdate (cs : List Node) (i : Nat) (g : Node → Node) : List Node :=
  match cs[i]? with
  | some c => cs.set i (g c)
  | none => cs

/-- Apply `f` to the data of the node a path refers to (in-place object
mutation in the source). -/
def updateAt (f : NodeData → NodeData) : Path → Node → Node
  | [], n => n.withData (f n.data)
  | i :: p, n =>
      match n with
      | .Sequence nm d idx cs => .Sequence nm d idx (listUpdate cs i (updateAt f p))
      | .Selector nm d cs => .Selector nm d (listUpdate cs i (updateAt f p))
      | leaf => leaf

/-- The effect of `Node._finish_tick` on a node's data: store `last_state`,
record the duration, accumulate it, then (`register_executed`) set
`is_active_path` and `exec_index = (number already registered) + 1`, and
stamp `last_tick_id` with the global tick counter. `k` is the number of
nodes already registered this tick, `dm` the measured duration. -/
def finish_data (tid : Nat) (st : NodeState) (k : Nat) (dm : Nat) (d : NodeData) : NodeData :=
  { d with last_state := some st, last_duration_ms := dm,
           accumulated_ms := d.accumulated_ms + dm,
           is_active_path := true, exec_index := k + 1,
           last_tick_id := (tid : Int) }

/-- Result of one `Node.tick()` call: the updated node, the returned
`NodeState`, and the updated registry (`Node._executed_nodes_last_tick`),
holding root-relative paths of registered nodes in registration order. -/
structure TickResult where
  node : Node
  state : NodeState
  reg : List Path

/-- Result of the Sequence while-loop over the children. -/
structure SeqRes where
  children : List Node
  index : Nat
  state : NodeState
  reg : List Path

/-- Result of the Selector for-loop over the children. -/
structure SelRes where
  children : List Node
  state : NodeState
  reg : List Path

mutual

/-- One `Node.tick()` call, per node variant, as in BehaviorTree.py. `dur` is
the duration oracle, `tid` the current `BT_TICK_ID`, `p` this node's
root-relative path, `reg` the registry on entry. Every return path goes
through `_finish_tick`, which registers the node. `Action.tick` coerces a
non-`NodeState` return value to FAILURE (`isinstance` check);
`Condition.tick` maps its boolean to SUCCESS/FAILURE. -/
def tickNode (dur : Nat → Nat) (tid : Nat) : Node → Path → List Path → TickResult
  | .Sequence nm d idx cs, p, reg =>
      let r := seqGo dur tid idx 0 cs p reg
      ⟨.Sequence nm (finish_data tid r.state r.reg.length (dur r.reg.length) d) r.index r.children,
       r.state, r.reg ++ [p]⟩
  | .Selector nm d cs, p, reg =>
      let r := selGo dur tid 0 cs p reg
      ⟨.Selector nm (finish_data tid r.state r.reg.length (dur r.reg.length) d) r.children,
       r.state, r.reg ++ [p]⟩
  | .Condition nm d b, p, reg =>
      let st := if b then NodeState.SUCCESS else NodeState.FAILURE
      ⟨.Condition nm (finish_data tid st reg.length (dur reg.length) d) b,
       st, reg ++ [p]⟩
  | .Action nm d v, p, reg =>
      let st := match v with
        | .state s => s
        | _ => NodeState.FAILURE
      ⟨.Action nm (finish_data tid st reg.length (dur reg.length) d) v,
       st, reg ++ [p]⟩

/-- The Sequence while-loop (`while self.index < len(self.children)`),
expressed structurally: `idx` is the persisted cursor, `j` the absolute
position of the list head. Children at positions `j < idx` are skipped
untouched; from position `idx` on, each child is ticked in turn: RUNNING
stops with the cursor at that child, FAILURE stops with the cursor reset to
0, SUCCESS moves on; running off the end resets the cursor to 0 with
SUCCESS. -/
def seqGo (dur : Nat → Nat) (tid : Nat) (idx : Nat) (j : Nat) :
    List Node → Path → List Path → SeqRes
  | [], _, reg => ⟨[], 0, NodeState.SUCCESS, reg⟩
  | c :: rest, p, reg =>
      if j < idx then
        let r := seqGo dur tid idx (j + 1) rest p reg
        ⟨c :: r.children, r.index, r.state, r.reg⟩
      else
        let rc := tickNode dur tid c (p ++ [j]) reg
        match rc.state with
        | .RUNNING => ⟨rc.node :: rest, j, NodeState.RUNNING, rc.reg⟩
        | .FAILURE => ⟨rc.node :: rest, 0, NodeState.FAILURE, rc.reg⟩
        | .SUCCESS =>
            let r := seqGo dur tid idx (j + 1) rest p rc.reg
            ⟨rc.node :: r.children, r.index, r.state, r.reg⟩

/-- The Selector for-loop: tick the children left to right, stop at the
first RUNNING or SUCCESS; FAILURE if the scan runs off the end. -/
def selGo (dur : Nat → Nat) (tid : Nat) (j : Nat) :
    List Node → Path → List Path → SelRes
  | [], _, reg => ⟨[], NodeState.FAILURE, reg⟩
  | c :: rest, p, reg =>
      let rc := tickNode dur tid c (p ++ [j]) reg
      match rc.state with
      | .RUNNING => ⟨rc.node :: rest, NodeState.RUNNING, rc.reg⟩
      | .SUCCESS => ⟨rc.node :: rest, NodeState.SUCCESS, rc.reg⟩
      | .FAILURE =>
          let r := selGo dur tid (j + 1) rest p rc.reg
          ⟨rc.node :: r.children, r.state, r.reg⟩

end

mutual

/-- The `NodeState` one `tick()` call returns, as a pure function of the
tree's current content (leaf results, Sequence cursors, structure). The
bookkeeping side effects never feed back into control flow within a tick,
so this denotation agrees with `tickNode` (proved below). -/
def evalNode : Node → NodeState
  | .Sequence _ _ idx cs => evalSeq idx 0 cs
  | .Selector _ _ cs => evalSel cs
  | .Condition _ _ b => if b then .SUCCESS else .FAILURE
  | .Action _ _ v =>
      match v with
      | .state s => s
      | _ => .FAILURE

def evalSeq (idx : Nat) (j : Nat) : List Node → NodeState
  | [] => .SUCCESS
  | c :: rest =>
      if j < idx then evalSeq idx (j + 1) rest
      else
        match evalNode c with
        | .RUNNING => .RUNNING
        | .FAILURE => .FAILURE
        | .SUCCESS => evalSeq idx (j + 1) rest

def evalSel : List Node → NodeState
  | [] => .FAILURE
  | c :: rest =>
      match evalNode c with
      | .RUNNING => .RUNNING
      | .SUCCESS => .SUCCESS
      | .FAILURE => evalSel rest

end

/-! ## Snapshot system -/

/-- `NodeSnapshot`: immutable per-tick record for a single executed node
(its `extra` dict is always empty in the source and omitted here). -/
structure NodeSnapshot where
  tick_id : Nat
  exec_index : Nat
  path_id : Nat
  parent_path_id : Nat
  node_type : String
  name : String
  state : String
  duration_ms : Nat
deriving DecidableEq, Repr

/-- `state_str` as computed in `BehaviorTree.tick`: the enum member name, or
"None" when the node has no recorded state. -/
def stateStr : Option NodeState → String
  | some s => s.enumName
  | none => "None"

/-- `SnapshotBuilder.record` for one executed node: capture its bookkeeping
fields. No `Node` ever has a `parent` attribute in the source, so the
`hasattr(node, "parent")` test always fails and `parent_path_id` is 0. -/
def recordNode (tid : Nat) (n : Node) : NodeSnapshot :=
  { tick_id := tid, exec_index := n.data.exec_index, path_id := n.data.path_id,
    parent_path_id := 0, node_type := n.node_type, name := n.name,
    state := stateStr n.data.last_state, duration_ms := n.data.last_duration_ms }

/-- Stable insertion into a list sorted by `exec_index`: an element coming
from earlier in the original list is placed before later elements with an
equal key, as Python's stable `sorted` does. -/
def insertLe (s : NodeSnapshot) : List NodeSnapshot → List NodeSnapshot
  | [] => [s]
  | t :: ts => if s.exec_index ≤ t.exec_index then s :: t :: ts else t :: insertLe s ts

/-- `sorted(self._records, key=lambda s: s.exec_index)` — a stable sort by
`exec_index`. -/
def sortByExec : List NodeSnapshot → List NodeSnapshot
  | [] => []
  | s :: ts => insertLe s (sortByExec ts)

/-- Python-dict insertion: replace in place if the key is present, append
otherwise. -/
def dictInsert : List (Nat × NodeSnapshot) → Nat → NodeSnapshot → List (Nat × NodeSnapshot)
  | [], k, v => [(k, v)]
  | (k', v') :: rest, k, v =>
      if k' = k then (k', v) :: rest else (k', v') :: dictInsert rest k v

/-- `{s.path_id: s for s in ordered}`. -/
def buildByPath (l : List NodeSnapshot) : List (Nat × NodeSnapshot) :=
  l.foldl (fun m s => dictInsert m s.path_id s) []

/-- The dict `SnapshotBuilder.build` returns. -/
structure Snapshot where
  tick_id : Nat
  nodes : List NodeSnapshot
  by_path : List (Nat × NodeSnapshot)
deriving DecidableEq, Repr

/-- `SnapshotBuilder.build`: sort the collected records by `exec_index` and
derive the path_id-keyed mapping. -/
def buildSnap (tid : Nat) (records : List NodeSnapshot) : Snapshot :=
  let ordered := sortByExec records
  { tick_id := tid, nodes := ordered, by_path := buildByPath ordered }

/-! ## BehaviorTree wrapper and global state -/

/-- The engine's process-wide state: the global tree of node objects
(`BT_ROOT`, which `BehaviorTree.__init__` installs as `self.root`), whether
`self.root` is still set (it can be assigned `None` from outside), the
global `BT_TICK_ID`, the class-level registry
`Node._executed_nodes_last_tick`, the wrapper's own
`_executed_nodes_last_tick` copy, and `last_snapshot`. -/
structure BTSystem where
  tree : Node
  hasRoot : Bool
  tick_id : Nat
  registry : List Path
  bt_executed : List Path
  last_snapshot : Option Snapshot

/-- The state right after module import plus `BehaviorTree.__init__`. -/
def mkSystem (t : Node) (b : Bool) : BTSystem :=
  { tree := t, hasRoot := b, tick_id := 0, registry := [],
    bt_executed := [], last_snapshot := none }

/-- Reset performed on a previously registered node by
`Node.begin_new_tick`. -/
def clearExec (d : NodeData) : NodeData :=
  { d with is_active_path := false, exec_index := 0 }

/-- `Node.begin_new_tick`: increment `BT_TICK_ID`, clear `is_active_path`
and `exec_index` on every node registered last tick, empty the registry. -/
def begin_new_tick (s : BTSystem) : BTSystem :=
  { s with tick_id := s.tick_id + 1,
           tree := s.registry.foldl (fun t p => updateAt clearExec p t) s.tree,
           registry := [] }

/-- `BehaviorTree.tick`: begin the new tick (always, before the root check),
reset the snapshot builder to the new `BT_TICK_ID`; with no root, clear the
executed list and the snapshot and return FAILURE; otherwise tick the root,
collect the registry, record a `NodeSnapshot` for each executed node (state
string from `last_state`, duration from `last_duration_ms`), build and
publish the snapshot, and return the root's state. -/
def btTick (dur : Nat → Nat) (s : BTSystem) : BTSystem × NodeState :=
  let s1 := begin_new_tick s
  if s1.hasRoot = false then
    ({ s1 with bt_executed := [], last_snapshot := none }, NodeState.FAILURE)
  else
    let r := tickNode dur s1.tick_id s1.tree [] []
    let executed := r.reg
    let records := executed.map (fun p => recordNode s1.tick_id (getNode r.node p))
    ({ s1 with tree := r.node, registry := r.reg, bt_executed := executed,
               last_snapshot := some (buildSnap s1.tick_id records) },
     r.state)

/-- `BehaviorTree.GetExecutedNodesLastTick`. -/
def GetExecutedNodesLastTick (s : BTSystem) : List Path := s.bt_executed

/-- `BehaviorTree.GetSnapshot`. -/
def GetSnapshot (s : BTSystem) : Option Snapshot := s.last_snapshot

/-! ## Path identity (`_build_snapshot`'s lazy hash assignment) -/

/-- The `hash64` wrapper truncated to 64 bits, over an arbitrary underlying
hash `h` (xxHash64 when available, Python's process-seeded built-in `hash`
otherwise — both unspecified here). -/
def hash64 (h : String → Nat) (s : String) : Nat := h s % 2 ^ 64

/-- `"/".join(path_parts + [node.name])`. -/
def pathString (parts : List String) (nm : String) : String :=
  String.intercalate "/" (parts ++ [nm])

/-- Path-id assignment on one node's data, as `_build_snapshot.visit` does:
assign the hash of the slash-joined path only if `path_id` is still 0. -/
def assignPid (h : String → Nat) (parts : List String) (nm : String) (d : NodeData) : NodeData :=
  if d.path_id = 0 then { d with path_id := hash64 h (pathString parts nm) } else d

mutual

/-- The tree mutation performed by `BehaviorTree._build_snapshot`'s `visit`
traversal: lazily assign each node's `path_id` from the slash-joined
ancestor-name path. (`visit` iterates the children in exec_index-sorted
order, but the assignment of each child is independent of that order and
the `children` lists themselves are not reordered, so list order is used
here.) -/
def assignPathIds (h : String → Nat) : Node → List String → Node
  | .Sequence nm d idx cs, parts =>
      .Sequence nm (assignPid h parts nm d) idx (assignPathIdsList h cs (parts ++ [nm]))
  | .Selector nm d cs, parts =>
      .Selector nm (assignPid h parts nm d) (assignPathIdsList h cs (parts ++ [nm]))
  | .Condition nm d b, parts => .Condition nm (assignPid h parts nm d) b
  | .Action nm d v, parts => .Action nm (assignPid h parts nm d) v

def assignPathIdsList (h : String → Nat) : List Node → List String → List Node
  | [], _ => []
  | c :: rest, parts => assignPathIds h c parts :: assignPathIdsList h rest parts

end

/-- The slash-joined name path of the node at `p`, with `parts` the names of
the ancestors above the subtree root (the spec's
`"/".join(ancestor_names) + "/" + node.name`). -/
def pathStringAt (t : Node) (parts : List String) : Path → String
  | [] => pathString parts t.name
  | i :: p =>
      match t.children[i]? with
      | some c => pathStringAt c (parts ++ [t.name]) p
      | none => ""

mutual

/-- A freshly built tree: every node still has its `__init__` field values
and every Sequence cursor is 0 (as `BuildBehaviorTree` produces). -/
def fresh : Node → Bool
  | .Sequence _ d idx cs => d = initData && idx = 0 && freshList cs
  | .Selector _ d cs => d = initData && freshList cs
  | .Condition _ d _ => d = initData
  | .Action _ d _ => d = initData

def freshList : List Node → Bool
  | [] => true
  | c :: rest => fresh c && freshList rest

end

/-- States the running system can actually be in: a freshly constructed tree
wrapped by `BehaviorTree.__init__`, then any interleaving of `tick()` calls,
debugger `_build_snapshot` traversals, and external reassignment of
`self.root` (as `BTStandalone` does). -/
inductive Reachable : BTSystem → Prop
  | init (t : Node) (b : Bool) : fresh t = true → Reachable (mkSystem t b)
  | tick (dur : Nat → Nat) {s : BTSystem} : Reachable s → Reachable (btTick dur s).1
  | build (h : String → Nat) {s : BTSystem} : Reachable s →
      Reachable { s with tree := assignPathIds h s.tree [] }
  | setRoot (b : Bool) {s : BTSystem} : Reachable s → Reachable { s with hasRoot := b }

/-! ## Induction principle for the node tree -/

/-- Subtree induction: to prove a property of every node it suffices to prove
it for a node assuming it for all its children. -/
theorem node_ind {P : Node → Prop}
    (h : ∀ t : Node, (∀ c ∈ t.children, P c) → P t) : ∀ t, P t := by
  intro t
  refine Node.rec (motive_1 := P) (motive_2 := fun cs => ∀ c ∈ cs, P c)
    ?_ ?_ ?_ ?_ ?_ ?_ t
  · intro nm d idx cs ih
    exact h (.Sequence nm d idx cs) (by simpa [Node.children] using ih)
  · intro nm d cs ih
    exact h (.Selector nm d cs) (by simpa [Node.children] using ih)
  · intro nm d b
    exact h (.Condition nm d b) (by simp [Node.children])
  · intro nm d v
    exact h (.Action nm d v) (by simp [Node.children])
  · intro c hc
    simp at hc
  · intro c rest hc hrest x hx
    rcases List.mem_cons.mp hx with rfl | hx
    · exact hc
    · exact hrest x hx

/-! ## Unfolding equations for the tick loops -/

theorem seqGo_nil (dur : Nat → Nat) (tid idx j : Nat) (p : Path) (reg : List Path) :
    seqGo dur tid idx j [] p reg = ⟨[], 0, .SUCCESS, reg⟩ := by
  rw [seqGo]

theorem seqGo_cons_lt (dur : Nat → Nat) (tid idx j : Nat) (c : Node) (rest : List Node)
    (p : Path) (reg : List Path) (h : j < idx) :
    seqGo dur tid idx j (c :: rest) p reg =
      ⟨c :: (seqGo dur tid idx (j + 1) rest p reg).children,
       (seqGo dur tid idx (j + 1) rest p reg).index,
       (seqGo dur tid idx (j + 1) rest p reg).state,
       (seqGo dur tid idx (j + 1) rest p reg).reg⟩ := by
  rw [seqGo]
  simp [h]

theorem seqGo_cons_run (dur : Nat → Nat) (tid idx j : Nat) (c : Node) (rest : List Node)
    (p : Path) (reg : List Path) (h : ¬ j < idx)
    (hs : (tickNode dur tid c (p ++ [j]) reg).state = .RUNNING) :
    seqGo dur tid idx j (c :: rest) p reg =
      ⟨(tickNode dur tid c (p ++ [j]) reg).node :: rest, j, .RUNNING,
       (tickNode dur tid c (p ++ [j]) reg).reg⟩ := by
  rw [seqGo]
  simp only [h, if_false, hs]

theorem seqGo_cons_fail (dur : Nat → Nat) (tid idx j : Nat) (c : Node) (rest : List Node)
    (p : Path) (reg : List Path) (h : ¬ j < idx)
    (hs : (tickNode dur tid c (p ++ [j]) reg).state = .FAILURE) :
    seqGo dur tid idx j (c :: rest) p reg =
      ⟨(tickNode dur tid c (p ++ [j]) reg).node :: rest, 0, .FAILURE,
       (tickNode dur tid c (p ++ [j]) reg).reg⟩ := by
  rw [seqGo]
  simp only [h, if_false, hs]

theorem seqGo_cons_succ (dur : Nat → Nat) (tid idx j : Nat) (c : Node) (rest : List Node)
    (p : Path) (reg : List Path) (h : ¬ j < idx)
    (hs : (tickNode dur tid c (p ++ [j]) reg).state = .SUCCESS) :
    seqGo dur tid idx j (c :: rest) p reg =
      ⟨(tickNode dur tid c (p ++ [j]) reg).node ::
         (seqGo dur tid idx (j + 1) rest p (tickNode dur tid c (p ++ [j]) reg).reg).children,
       (seqGo dur tid idx (j + 1) rest p (tickNode dur tid c (p ++ [j]) reg).reg).index,
       (seqGo dur tid idx (j + 1) rest p (tickNode dur tid c (p ++ [j]) reg).reg).state,
       (seqGo dur tid idx (j + 1) rest p (tickNode dur tid c (p ++ [j]) reg).reg).reg⟩ := by
  rw [seqGo]
  simp only [h, if_false, hs]

theorem selGo_nil (dur : Nat → Nat) (tid j : Nat) (p : Path) (reg : List Path) :
    selGo dur tid j [] p reg = ⟨[], .FAILURE, reg⟩ := by
  rw [selGo]

theorem selGo_cons_run (dur : Nat → Nat) (tid j : Nat) (c : Node) (rest : List Node)
    (p : Path) (reg : List Path)
    (hs : (tickNode dur tid c (p ++ [j]) reg).state = .RUNNING) :
    selGo dur tid j (c :: rest) p reg =
      ⟨(tickNode dur tid c (p ++ [j]) reg).node :: rest, .RUNNING,
       (tickNode dur tid c (p ++ [j]) reg).reg⟩ := by
  rw [selGo]
  simp only [hs]

theorem selGo_cons_succ (dur : Nat → Nat) (tid j : Nat) (c : Node) (rest : List Node)
    (p : Path) (reg : List Path)
    (hs : (tickNode dur tid c (p ++ [j]) reg).state = .SUCCESS) :
    selGo dur tid j (c :: rest) p reg =
      ⟨(tickNode dur tid c (p ++ [j]) reg).node :: rest, .SUCCESS,
       (tickNode dur tid c (p ++ [j]) reg).reg⟩ := by
  rw [selGo]
  simp only [hs]

theorem selGo_cons_fail (dur : Nat → Nat) (tid j : Nat) (c : Node) (rest : List Node)
    (p : Path) (reg : List Path)
    (hs : (tickNode dur tid c (p ++ [j]) reg).state = .FAILURE) :
    selGo dur tid j (c :: rest) p reg =
      ⟨(tickNode dur tid c (p ++ [j]) reg).node ::
         (selGo dur tid (j + 1) rest p (tickNode dur tid c (p ++ [j]) reg).reg).children,
       (selGo dur tid (j + 1) rest p (tickNode dur tid c (p ++ [j]) reg).reg).state,
       (selGo dur tid (j + 1) rest p (tickNode dur tid c (p ++ [j]) reg).reg).reg⟩ := by
  rw [selGo]
  simp only [hs]

theorem tickNode_seq (dur : Nat → Nat) (tid : Nat) (nm : String) (d : NodeData)
    (idx : Nat) (cs : List Node) (p : Path) (reg : List Path) :
    tickNode dur tid (.Sequence nm d idx cs) p reg =
      ⟨.Sequence nm
         (finish_data tid (seqGo dur tid idx 0 cs p reg).state
           (seqGo dur tid idx 0 cs p reg).reg.length
           (dur (seqGo dur tid idx 0 cs p reg).reg.length) d)
         (seqGo dur tid idx 0 cs p reg).index (seqGo dur tid idx 0 cs p reg).children,
       (seqGo dur tid idx 0 cs p reg).state,
       (seqGo dur tid idx 0 cs p reg).reg ++ [p]⟩ := by
  rw [tickNode]

theorem tickNode_sel (dur : Nat → Nat) (tid : Nat) (nm : String) (d : NodeData)
    (cs : List Node) (p : Path) (reg : List Path) :
    tickNode dur tid (.Selector nm d cs) p reg =
      ⟨.Selector nm
         (finish_data tid (selGo dur tid 0 cs p reg).state
           (selGo dur tid 0 cs p reg).reg.length
           (dur (selGo dur tid 0 cs p reg).reg.length) d)
         (selGo dur tid 0 cs p reg).children,
       (selGo dur tid 0 cs p reg).state,
       (selGo dur tid 0 cs p reg).reg ++ [p]⟩ := by
  rw [tickNode]

theorem tickNode_cond (dur : Nat → Nat) (tid : Nat) (nm : String) (d : NodeData)
    (b : Bool) (p : Path) (reg : List Path) :
    tickNode dur tid (.Condition nm d b) p reg =
      ⟨.Condition nm
         (finish_data tid (if b then .SUCCESS else .FAILURE) reg.length (dur reg.length) d) b,
       (if b then .SUCCESS else .FAILURE), reg ++ [p]⟩ := by
  rw [tickNode]

theorem tickNode_act (dur : Nat → Nat) (tid : Nat) (nm : String) (d : NodeData)
    (v : PyVal) (p : Path) (reg : List Path) :
    tickNode dur tid (.Action nm d v) p reg =
      ⟨.Action nm
         (finish_data tid
           (match v with | .state s => s | _ => NodeState.FAILURE)
           reg.length (dur reg.length) d) v,
       (match v with | .state s => s | _ => NodeState.FAILURE), reg ++ [p]⟩ := by
  cases v <;> rw [tickNode] <;> intro s h <;> cases h

/-! ## The cursor-skip phase of the Sequence loop -/

/-- While `j < idx`, the loop leaves the prefix of the children untouched and
resumes at the cursor. (When the cursor is at or past the end this degenerates
to `take` of everything and a run over `[]`, i.e. cursor reset and SUCCESS.) -/
theorem seqGo_skip (dur : Nat → Nat) (tid idx : Nat) :
    ∀ (cs : List Node) (j : Nat) (p : Path) (reg : List Path), j ≤ idx →
      seqGo dur tid idx j cs p reg =
        ⟨cs.take (idx - j) ++ (seqGo dur tid idx idx (cs.drop (idx - j)) p reg).children,
         (seqGo dur tid idx idx (cs.drop (idx - j)) p reg).index,
         (seqGo dur tid idx idx (cs.drop (idx - j)) p reg).state,
         (seqGo dur tid idx idx (cs.drop (idx - j)) p reg).reg⟩ := by
  intro cs
  induction cs with
  | nil =>
      intro j p reg hj
      simp [seqGo_nil]
  | cons c rest ih =>
      intro j p reg hj
      rcases Nat.eq_or_lt_of_le hj with rfl | hlt
      · simp
      · have hd : idx - j = (idx - (j + 1)) + 1 := by omega
        rw [seqGo_cons_lt dur tid idx j c rest p reg hlt, ih (j + 1) p reg (by omega), hd]
        simp [List.take_succ_cons, List.drop_succ_cons]

/-- The ticking phase of the Sequence loop does not depend on where the
cursor was, once the scan is at or past the cursor. -/
theorem seqGo_idx_irrel (dur : Nat → Nat) (tid : Nat) :
    ∀ (cs : List Node) (idx idx' j : Nat) (p : Path) (reg : List Path),
      idx ≤ j → idx' ≤ j →
      seqGo dur tid idx j cs p reg = seqGo dur tid idx' j cs p reg := by
  intro cs
  induction cs with
  | nil =>
      intro idx idx' j p reg h1 h2
      simp [seqGo_nil]
  | cons c rest ih =>
      intro idx idx' j p reg h1 h2
      rw [seqGo, seqGo]
      simp only [Nat.not_lt.mpr h1, Nat.not_lt.mpr h2, if_false]
      cases hrc : (tickNode dur tid c (p ++ [j]) reg).state <;>
        simp [ih idx idx' (j + 1) p _ (by omega) (by omega)]

/-! ## The returned NodeState agrees with the pure denotation -/

theorem seqGo_state_of (dur : Nat → Nat) (tid : Nat) :
    ∀ (cs : List Node),
      (∀ c ∈ cs, ∀ (p : Path) (reg : List Path),
        (tickNode dur tid c p reg).state = evalNode c) →
      ∀ (idx j : Nat) (p : Path) (reg : List Path),
        (seqGo dur tid idx j cs p reg).state = evalSeq idx j cs := by
  intro cs
  induction cs with
  | nil =>
      intro _ idx j p reg
      simp [seqGo_nil, evalSeq]
  | cons c rest ih =>
      intro hcs idx j p reg
      have hc := hcs c (List.mem_cons_self c rest)
      have hrest : ∀ c' ∈ rest, ∀ (p : Path) (reg : List Path),
          (tickNode dur tid c' p reg).state = evalNode c' :=
        fun c' hc' => hcs c' (List.mem_cons_of_mem c hc')
      rw [evalSeq]
      by_cases hj : j < idx
      · rw [seqGo_cons_lt dur tid idx j c rest p reg hj]
        simp [hj, ih hrest]
      · simp only [hj, if_false]
        cases hev : evalNode c with
        | RUNNING =>
            rw [seqGo_cons_run dur tid idx j c rest p reg hj (by rw [hc, hev])]
        | FAILURE =>
            rw [seqGo_cons_fail dur tid idx j c rest p reg hj (by rw [hc, hev])]
        | SUCCESS =>
            rw [seqGo_cons_succ dur tid idx j c rest p reg hj (by rw [hc, hev])]
            simp [ih hrest]

theorem selGo_state_of (dur : Nat → Nat) (tid : Nat) :
    ∀ (cs : List Node),
      (∀ c ∈ cs, ∀ (p : Path) (reg : List Path),
        (tickNode dur tid c p reg).state = evalNode c) →
      ∀ (j : Nat) (p : Path) (reg : List Path),
        (selGo dur tid j cs p reg).state = evalSel cs := by
  intro cs
  induction cs with
  | nil =>
      intro _ j p reg
      simp [selGo_nil, evalSel]
  | cons c rest ih =>
      intro hcs j p reg
      have hc := hcs c (List.mem_cons_self c rest)
      have hrest : ∀ c' ∈ rest, ∀ (p : Path) (reg : List Path),
          (tickNode dur tid c' p reg).state = evalNode c' :=
        fun c' hc' => hcs c' (List.mem_cons_of_mem c hc')
      rw [evalSel]
      cases hev : evalNode c with
      | RUNNING =>
          rw [selGo_cons_run dur tid j c rest p reg (by rw [hc, hev])]
      | SUCCESS =>
          rw [selGo_cons_succ dur tid j c rest p reg (by rw [hc, hev])]
      | FAILURE =>
          rw [selGo_cons_fail dur tid j c rest p reg (by rw [hc, hev])]
          simp [ih hrest]

/-- The NodeState a `tick()` call returns is a pure function of the tree's
current content: the bookkeeping side effects (registry, durations,
exec_index) never feed back into control flow within a tick. -/
theorem tickNode_state (dur : Nat → Nat) (tid : Nat) :
    ∀ (t : Node) (p : Path) (reg : List Path),
      (tickNode dur tid t p reg).state = evalNode t := by
  refine node_ind ?_
  intro t ih p reg
  cases t with
  | Sequence nm d idx cs =>
      rw [tickNode_seq, evalNode]
      exact seqGo_state_of dur tid cs (by simpa [Node.children] using ih) idx 0 p reg
  | Selector nm d cs =>
      rw [tickNode_sel, evalNode]
      exact selGo_state_of dur tid cs (by simpa [Node.children] using ih) 0 p reg
  | Condition nm d b =>
      rw [tickNode_cond, evalNode]
  | Action nm d v =>
      cases v <;> rw [tickNode_act] <;> rw [evalNode] <;> intro s h <;> cases h

/-! ## Shape preservation

`strip` forgets everything a tick can change (the bookkeeping data and the
Sequence cursors), keeping names, variants, leaf payloads and the child
structure. Operations that only mutate node data preserve `strip`. -/

mutual

def strip : Node → Node
  | .Sequence nm _ _ cs => .Sequence nm initData 0 (stripList cs)
  | .Selector nm _ cs => .Selector nm initData (stripList cs)
  | .Condition nm _ b => .Condition nm initData b
  | .Action nm _ v => .Action nm initData v

def stripList : List Node → List Node
  | [] => []
  | c :: rest => strip c :: stripList rest

end

theorem stripList_eq_map : ∀ cs : List Node, stripList cs = cs.map strip := by
  intro cs
  induction cs with
  | nil => rw [stripList]; rfl
  | cons c rest ih => rw [stripList, ih]; rfl

theorem strip_children (t : Node) : (strip t).children = stripList t.children := by
  cases t <;> simp [strip, Node.children, stripList]

theorem strip_name (t : Node) : (strip t).name = t.name := by
  cases t <;> simp [strip, Node.name]

theorem nodeAt_strip : ∀ (p : Path) (t : Node),
    nodeAt (strip t) p = (nodeAt t p).map strip := by
  intro p
  induction p with
  | nil => intro t; simp [nodeAt]
  | cons i p ih =>
      intro t
      rw [nodeAt, nodeAt, strip_children, stripList_eq_map]
      rw [List.getElem?_map]
      cases hc : t.children[i]? with
      | none => simp
      | some c => simp [ih c]

theorem validPath_iff_of_strip {t1 t2 : Node} (h : strip t1 = strip t2) (p : Path) :
    validPath t1 p ↔ validPath t2 p := by
  unfold validPath
  have h1 := nodeAt_strip p t1
  have h2 := nodeAt_strip p t2
  rw [h] at h1
  rw [h2] at h1
  constructor
  · intro hs
    rcases Option.isSome_iff_exists.mp hs with ⟨a, ha⟩
    rw [ha] at h1
    cases hb : nodeAt t2 p with
    | none => rw [hb] at h1; simp at h1
    | some b => simp
  · intro hs
    rcases Option.isSome_iff_exists.mp hs with ⟨a, ha⟩
    rw [ha] at h1
    cases hb : nodeAt t1 p with
    | none => rw [hb] at h1; simp at h1
    | some b => simp

theorem strip_withData (n : Node) (d : NodeData) : strip (n.withData d) = strip n := by
  cases n <;> rfl

theorem map_strip_listUpdate (cs : List Node) (i : Nat) (g : Node → Node)
    (hg : ∀ c, strip (g c) = strip c) :
    (listUpdate cs i g).map strip = cs.map strip := by
  unfold listUpdate
  cases hc : cs[i]? with
  | none => rfl
  | some c =>
      apply List.ext_getElem?
      intro j
      rw [List.getElem?_map, List.getElem?_map, List.getElem?_set]
      by_cases hij : i = j
      · subst hij
        have : i < cs.length := (List.getElem?_eq_some.mp hc).1
        simp [this, hg c, hc]
      · simp [hij]

theorem strip_updateAt (f : NodeData → NodeData) :
    ∀ (p : Path) (t : Node), strip (updateAt f p t) = strip t := by
  intro p
  induction p with
  | nil => intro t; rw [updateAt]; exact strip_withData t (f t.data)
  | cons i p ih =>
      intro t
      cases t with
      | Sequence nm d idx cs =>
          rw [updateAt]
          show strip (.Sequence nm d idx (listUpdate cs i (updateAt f p))) = _
          rw [strip, strip, stripList_eq_map, stripList_eq_map]
          rw [map_strip_listUpdate cs i _ (fun c => ih c)]
      | Selector nm d cs =>
          rw [updateAt]
          show strip (.Selector nm d (listUpdate cs i (updateAt f p))) = _
          rw [strip, strip, stripList_eq_map, stripList_eq_map]
          rw [map_strip_listUpdate cs i _ (fun c => ih c)]
      | Condition nm d b => rfl
      | Action nm d v => rfl

/-! ## Lookup / update interaction -/

theorem withData_data (n : Node) (d : NodeData) : (n.withData d).data = d := by
  cases n <;> rfl

theorem withData_children (n : Node) (d : NodeData) :
    (n.withData d).children = n.children := by
  cases n <;> rfl

theorem dataAt_nil (t : Node) : dataAt t [] = t.data := rfl

theorem nodeAt_cons_some {t c : Node} {i : Nat} (hc : t.children[i]? = some c) (p : Path) :
    nodeAt t (i :: p) = nodeAt c p := by
  rw [nodeAt, hc]

theorem nodeAt_cons_none {t : Node} {i : Nat} (hc : t.children[i]? = none) (p : Path) :
    nodeAt t (i :: p) = none := by
  rw [nodeAt, hc]

theorem validPath_cons {t : Node} {i : Nat} {p : Path} (hv : validPath t (i :: p)) :
    ∃ c, t.children[i]? = some c ∧ validPath c p := by
  unfold validPath at hv
  cases hc : t.children[i]? with
  | none => rw [nodeAt_cons_none hc] at hv; simp at hv
  | some c =>
      rw [nodeAt_cons_some hc] at hv
      exact ⟨c, rfl, hv⟩

theorem getNode_cons_some {t c : Node} {i : Nat} (hc : t.children[i]? = some c) (p : Path)
    (hvc : validPath c p) : getNode t (i :: p) = getNode c p := by
  unfold getNode
  rw [nodeAt_cons_some hc p]
  rcases Option.isSome_iff_exists.mp hvc with ⟨x, hx⟩
  rw [hx]
  rfl

theorem dataAt_cons {t c : Node} {i : Nat} (hc : t.children[i]? = some c) (p : Path)
    (hvc : validPath c p) : dataAt t (i :: p) = dataAt c p := by
  unfold dataAt
  rw [getNode_cons_some hc p hvc]

/-- The data of a node is untouched when a strict descendant is updated. -/
theorem updateAt_cons_data (f : NodeData → NodeData) (i : Nat) (p : Path) (t : Node) :
    (updateAt f (i :: p) t).data = t.data := by
  cases t <;> rfl

/-- The children list after updating below child `i`. -/
theorem updateAt_cons_children (f : NodeData → NodeData) (i : Nat) (p : Path) (t : Node)
    {c : Node} (hc : t.children[i]? = some c) :
    (updateAt f (i :: p) t).children = t.children.set i (updateAt f p c) := by
  cases t with
  | Sequence nm d idx cs =>
      rw [updateAt]
      show listUpdate cs i (updateAt f p) = _
      unfold listUpdate
      rw [show cs[i]? = some c from hc]
      rfl
  | Selector nm d cs =>
      rw [updateAt]
      show listUpdate cs i (updateAt f p) = _
      unfold listUpdate
      rw [show cs[i]? = some c from hc]
      rfl
  | Condition nm d b => simp [Node.children] at hc
  | Action nm d v => simp [Node.children] at hc

theorem updateAt_cons_children_none (f : NodeData → NodeData) (i : Nat) (p : Path) (t : Node)
    (hc : t.children[i]? = none) :
    (updateAt f (i :: p) t).children = t.children := by
  cases t with
  | Sequence nm d idx cs =>
      rw [updateAt]
      show listUpdate cs i (updateAt f p) = _
      unfold listUpdate
      rw [show cs[i]? = none from hc]
      rfl
  | Selector nm d cs =>
      rw [updateAt]
      show listUpdate cs i (updateAt f p) = _
      unfold listUpdate
      rw [show cs[i]? = none from hc]
      rfl
  | Condition nm d b => rfl
  | Action nm d v => rfl

theorem nodeAt_updateAt_self (f : NodeData → NodeData) :
    ∀ (p : Path) (t : Node), validPath t p →
      nodeAt (updateAt f p t) p = some ((getNode t p).withData (f (dataAt t p))) := by
  intro p
  induction p with
  | nil =>
      intro t _
      simp [updateAt, nodeAt, getNode, dataAt]
  | cons i p ih =>
      intro t hv
      rcases validPath_cons hv with ⟨c, hc, hvc⟩
      have hlen : i < t.children.length := (List.getElem?_eq_some.mp hc).1
      have hup : (updateAt f (i :: p) t).children[i]? = some (updateAt f p c) := by
        rw [updateAt_cons_children f i p t hc, List.getElem?_set]
        simp [hlen]
      rw [nodeAt_cons_some hup p, ih c hvc,
          getNode_cons_some hc p hvc, dataAt_cons hc p hvc]

theorem dataAt_updateAt_self (f : NodeData → NodeData) (p : Path) (t : Node)
    (hv : validPath t p) :
    dataAt (updateAt f p t) p = f (dataAt t p) := by
  unfold dataAt getNode
  rw [nodeAt_updateAt_self f p t hv]
  simp [withData_data]
  rfl

theorem dataAt_updateAt_ne (f : NodeData → NodeData) :
    ∀ (p q : Path) (t : Node), p ≠ q → validPath t q →
      dataAt (updateAt f p t) q = dataAt t q := by
  intro p
  induction p with
  | nil =>
      intro q t hne hv
      cases q with
      | nil => exact absurd rfl hne
      | cons j q2 =>
          rcases validPath_cons hv with ⟨c, hc, hvc⟩
          rw [updateAt]
          rw [dataAt_cons hc q2 hvc]
          rw [dataAt_cons (t := t.withData (f t.data))
            (by rw [withData_children]; exact hc) q2 hvc]
  | cons i p2 ih =>
      intro q t hne hv
      cases q with
      | nil =>
          rw [dataAt_nil, dataAt_nil, updateAt_cons_data]
      | cons j q2 =>
          rcases validPath_cons hv with ⟨c, hc, hvc⟩
          have hlenj : j < t.children.length := (List.getElem?_eq_some.mp hc).1
          by_cases hch : ∃ cc, t.children[i]? = some cc
          · rcases hch with ⟨cc, hcc⟩
            have hleni : i < t.children.length := (List.getElem?_eq_some.mp hcc).1
            by_cases hij : i = j
            · subst hij
              have hcceq : cc = c := by
                rw [hcc] at hc
                exact Option.some.inj hc
              subst hcceq
              have hpq : p2 ≠ q2 := by
                intro hpp
                exact hne (by rw [hpp])
              have hc2 : (updateAt f (i :: p2) t).children[i]? =
                  some (updateAt f p2 cc) := by
                rw [updateAt_cons_children f i p2 t hcc, List.getElem?_set]
                simp [hleni]
              have hvc2 : validPath (updateAt f p2 cc) q2 :=
                (validPath_iff_of_strip (strip_updateAt f p2 cc) q2).mpr hvc
              rw [dataAt_cons hc2 q2 hvc2, dataAt_cons hc q2 hvc]
              exact ih q2 cc hpq hvc
            · have hc2 : (updateAt f (i :: p2) t).children[j]? = some c := by
                rw [updateAt_cons_children f i p2 t hcc, List.getElem?_set]
                simp [hij, hc]
              rw [dataAt_cons hc2 q2 hvc, dataAt_cons hc q2 hvc]
          · have hnone : t.children[i]? = none := by
              cases hx : t.children[i]? with
              | none => rfl
              | some cc => exact absurd ⟨cc, hx⟩ hch
            have hc2 : (updateAt f (i :: p2) t).children[j]? = some c := by
              rw [updateAt_cons_children_none f i p2 t hnone]
              exact hc
            rw [dataAt_cons hc2 q2 hvc, dataAt_cons hc q2 hvc]

/-- `clearExec` is idempotent. -/
theorem clearExec_clearExec (d : NodeData) : clearExec (clearExec d) = clearExec d := by
  simp [clearExec]

/-- What the reset loop of `begin_new_tick` does to each node: nodes whose
path is in the processed list get their exec flags cleared (and nothing
else), all other nodes are untouched. -/
theorem dataAt_resetFold :
    ∀ (l : List Path) (t : Node) (q : Path), validPath t q →
      dataAt (l.foldl (fun t p => updateAt clearExec p t) t) q =
        if q ∈ l then clearExec (dataAt t q) else dataAt t q := by
  intro l
  induction l with
  | nil =>
      intro t q _
      simp
  | cons pp l ih =>
      intro t q hv
      have hv' : validPath (updateAt clearExec pp t) q :=
        (validPath_iff_of_strip (strip_updateAt clearExec pp t) q).mpr hv
      rw [List.foldl_cons, ih (updateAt clearExec pp t) q hv']
      by_cases hq : q = pp
      · subst hq
        rw [dataAt_updateAt_self clearExec q t hv]
        by_cases hmem : q ∈ l <;> simp [hmem, clearExec_clearExec]
      · rw [dataAt_updateAt_ne clearExec pp q t (fun h => hq h.symm) hv]
        by_cases hmem : q ∈ l <;> simp [hmem, hq]

theorem strip_resetFold : ∀ (l : List Path) (t : Node),
    strip (l.foldl (fun t p => updateAt clearExec p t) t) = strip t := by
  intro l
  induction l with
  | nil => intro t; rfl
  | cons pp l ih =>
      intro t
      rw [List.foldl_cons, ih, strip_updateAt]

/-! ## Ticking preserves the tree's shape -/

theorem seqGo_strip_of (dur : Nat → Nat) (tid : Nat) :
    ∀ (cs : List Node),
      (∀ c ∈ cs, ∀ (p : Path) (reg : List Path),
        strip (tickNode dur tid c p reg).node = strip c) →
      ∀ (idx j : Nat) (p : Path) (reg : List Path),
        (seqGo dur tid idx j cs p reg).children.map strip = cs.map strip := by
  intro cs
  induction cs with
  | nil =>
      intro _ idx j p reg
      simp [seqGo_nil]
  | cons c rest ih =>
      intro hcs idx j p reg
      have hc := hcs c (List.mem_cons_self c rest)
      have hrest : ∀ c' ∈ rest, ∀ (p : Path) (reg : List Path),
          strip (tickNode dur tid c' p reg).node = strip c' :=
        fun c' hc' => hcs c' (List.mem_cons_of_mem c hc')
      by_cases hj : j < idx
      · rw [seqGo_cons_lt dur tid idx j c rest p reg hj]
        simp [ih hrest]
      · cases hrc : (tickNode dur tid c (p ++ [j]) reg).state with
        | RUNNING =>
            rw [seqGo_cons_run dur tid idx j c rest p reg hj hrc]
            simp [hc]
        | FAILURE =>
            rw [seqGo_cons_fail dur tid idx j c rest p reg hj hrc]
            simp [hc]
        | SUCCESS =>
            rw [seqGo_cons_succ dur tid idx j c rest p reg hj hrc]
            simp [hc, ih hrest]

theorem selGo_strip_of (dur : Nat → Nat) (tid : Nat) :
    ∀ (cs : List Node),
      (∀ c ∈ cs, ∀ (p : Path) (reg : List Path),
        strip (tickNode dur tid c p reg).node = strip c) →
      ∀ (j : Nat) (p : Path) (reg : List Path),
        (selGo dur tid j cs p reg).children.map strip = cs.map strip := by
  intro cs
  induction cs with
  | nil =>
      intro _ j p reg
      simp [selGo_nil]
  | cons c rest ih =>
      intro hcs j p reg
      have hc := hcs c (List.mem_cons_self c rest)
      have hrest : ∀ c' ∈ rest, ∀ (p : Path) (reg : List Path),
          strip (tickNode dur tid c' p reg).node = strip c' :=
        fun c' hc' => hcs c' (List.mem_cons_of_mem c hc')
      cases hrc : (tickNode dur tid c (p ++ [j]) reg).state with
      | RUNNING =>
          rw [selGo_cons_run dur tid j c rest p reg hrc]
          simp [hc]
      | SUCCESS =>
          rw [selGo_cons_succ dur tid j c rest p reg hrc]
          simp [hc]
      | FAILURE =>
          rw [selGo_cons_fail dur tid j c rest p reg hrc]
          simp [hc, ih hrest]

/-- A tick changes only node data and Sequence cursors, never the tree's
shape, names, variants or leaf payloads. -/
theorem tickNode_strip (dur : Nat → Nat) (tid : Nat) :
    ∀ (t : Node) (p : Path) (reg : List Path),
      strip (tickNode dur tid t p reg).node = strip t := by
  refine node_ind ?_
  intro t ih p reg
  cases t with
  | Sequence nm d idx cs =>
      rw [tickNode_seq]
      show strip (.Sequence nm _ _ _) = _
      rw [strip, strip, stripList_eq_map, stripList_eq_map]
      rw [seqGo_strip_of dur tid cs (by simpa [Node.children] using ih) idx 0 p reg]
  | Selector nm d cs =>
      rw [tickNode_sel]
      show strip (.Selector nm _ _) = _
      rw [strip, strip, stripList_eq_map, stripList_eq_map]
      rw [selGo_strip_of dur tid cs (by simpa [Node.children] using ih) 0 p reg]
  | Condition nm d b =>
      rw [tickNode_cond]
      rfl
  | Action nm d v =>
      cases v <;> rw [tickNode_act] <;> rfl

theorem strip_getElem_of_map_eq {l1 l2 : List Node}
    (h : l1.map strip = l2.map strip) {v : Nat} {c : Node} (hc : l2[v]? = some c) :
    ∃ cNew, l1[v]? = some cNew ∧ strip cNew = strip c := by
  have h1 : (l1.map strip)[v]? = (l2.map strip)[v]? := by rw [h]
  rw [List.getElem?_map, List.getElem?_map, hc] at h1
  cases hx : l1[v]? with
  | none => rw [hx] at h1; simp at h1
  | some cNew =>
      rw [hx] at h1
      simp at h1
      exact ⟨cNew, rfl, h1⟩

/-! ## The central execution lemma

One tick call appends its executed nodes to the registry; the k-th
registered node (counting from the start of the tick) ends the tick with
data produced by `_finish_tick` at registration count k — in particular
`exec_index = k + 1` and `is_active_path = true` — and every node it did not
register is left completely untouched. -/

theorem validPath_nil (t : Node) : validPath t [] := by
  simp [validPath, nodeAt]

theorem validPath_cons_of {t c : Node} {i : Nat} (hc : t.children[i]? = some c)
    {s : Path} (hs : validPath c s) : validPath t (i :: s) := by
  unfold validPath
  rw [nodeAt_cons_some hc]
  exact hs

theorem validPath_leaf {t : Node} (hleaf : t.children = []) {s : Path}
    (hs : validPath t s) : s = [] := by
  cases s with
  | nil => rfl
  | cons i s' =>
      rcases validPath_cons hs with ⟨c, hc, _⟩
      rw [hleaf] at hc
      simp at hc

/-- Everything `tickNode` guarantees about the registry and node data. -/
def TickSpec (dur : Nat → Nat) (tid : Nat) (t : Node) (p : Path) (reg : List Path) : Prop :=
  ∃ ps, (tickNode dur tid t p reg).reg = reg ++ ps ∧
    (∀ (k : Nat) (q : Path), ps[k]? = some q → ∃ s st,
        q = p ++ s ∧ validPath t s ∧
        dataAt (tickNode dur tid t p reg).node s =
          finish_data tid st (reg.length + k) (dur (reg.length + k)) (dataAt t s)) ∧
    (∀ s, validPath t s → (p ++ s) ∉ ps →
        dataAt (tickNode dur tid t p reg).node s = dataAt t s)

/-- The same account for the Sequence loop over a children list: all
registered paths descend into children at positions at least `j` (and at
least the cursor), and unregistered nodes are untouched. -/
def SeqSpec (dur : Nat → Nat) (tid idx j : Nat) (cs : List Node) (p : Path)
    (reg : List Path) : Prop :=
  ∃ ps, (seqGo dur tid idx j cs p reg).reg = reg ++ ps ∧
    (∀ (k : Nat) (q : Path), ps[k]? = some q → ∃ u s c cNew st,
        q = p ++ u :: s ∧ j ≤ u ∧ cs[u - j]? = some c ∧ validPath c s ∧
        (seqGo dur tid idx j cs p reg).children[u - j]? = some cNew ∧
        dataAt cNew s =
          finish_data tid st (reg.length + k) (dur (reg.length + k)) (dataAt c s)) ∧
    (∀ (v : Nat) (s : Path) (c : Node), cs[v]? = some c → validPath c s →
        (p ++ (j + v) :: s) ∉ ps →
        ∃ cNew, (seqGo dur tid idx j cs p reg).children[v]? = some cNew ∧
          dataAt cNew s = dataAt c s)

def SelSpec (dur : Nat → Nat) (tid j : Nat) (cs : List Node) (p : Path)
    (reg : List Path) : Prop :=
  ∃ ps, (selGo dur tid j cs p reg).reg = reg ++ ps ∧
    (∀ (k : Nat) (q : Path), ps[k]? = some q → ∃ u s c cNew st,
        q = p ++ u :: s ∧ j ≤ u ∧ cs[u - j]? = some c ∧ validPath c s ∧
        (selGo dur tid j cs p reg).children[u - j]? = some cNew ∧
        dataAt cNew s =
          finish_data tid st (reg.length + k) (dur (reg.length + k)) (dataAt c s)) ∧
    (∀ (v : Nat) (s : Path) (c : Node), cs[v]? = some c → validPath c s →
        (p ++ (j + v) :: s) ∉ ps →
        ∃ cNew, (selGo dur tid j cs p reg).children[v]? = some cNew ∧
          dataAt cNew s = dataAt c s)

theorem path_append_cons (p : Path) (j : Nat) (s : Path) :
    (p ++ [j]) ++ s = p ++ j :: s := by simp

theorem seqGo_exec_of (dur : Nat → Nat) (tid idx : Nat) :
    ∀ (cs : List Node),
      (∀ c ∈ cs, ∀ (p : Path) (reg : List Path), TickSpec dur tid c p reg) →
      ∀ (j : Nat) (p : Path) (reg : List Path), SeqSpec dur tid idx j cs p reg := by
  intro cs
  induction cs with
  | nil =>
      intro _ j p reg
      refine ⟨[], ?_, ?_, ?_⟩
      · simp [seqGo_nil]
      · intro k q hq
        simp at hq
      · intro v s c hc _ _
        simp at hc
  | cons c rest ih =>
      intro hcs j p reg
      unfold SeqSpec
      have hspec := hcs c (List.mem_cons_self c rest) (p ++ [j]) reg
      have hrest : ∀ c' ∈ rest, ∀ (p : Path) (reg : List Path), TickSpec dur tid c' p reg :=
        fun c' hc' => hcs c' (List.mem_cons_of_mem c hc')
      by_cases hj : j < idx
      · -- skip this child: the loop has not reached the cursor yet
        rcases ih hrest (j + 1) p reg with ⟨ps, hps, h2, h3⟩
        rw [seqGo_cons_lt dur tid idx j c rest p reg hj]
        refine ⟨ps, hps, ?_, ?_⟩
        · intro k q hq
          rcases h2 k q hq with ⟨u, s, c0, cNew, st, hqe, hju, hcs0, hval, hcn, hdata⟩
          refine ⟨u, s, c0, cNew, st, hqe, by omega, ?_, hval, ?_, hdata⟩
          · rw [show u - j = (u - (j + 1)) + 1 by omega, List.getElem?_cons_succ]
            exact hcs0
          · show (c :: (seqGo dur tid idx (j + 1) rest p reg).children)[u - j]? = _
            rw [show u - j = (u - (j + 1)) + 1 by omega, List.getElem?_cons_succ]
            exact hcn
        · intro v s c0 hc0 hv hnot
          cases v with
          | zero =>
              refine ⟨c, ?_, ?_⟩
              · show (c :: (seqGo dur tid idx (j + 1) rest p reg).children)[0]? = some c
                rw [List.getElem?_cons_zero]
              · rw [List.getElem?_cons_zero] at hc0
                rw [Option.some.inj hc0]
          | succ v' =>
              rw [List.getElem?_cons_succ] at hc0
              have hnot' : (p ++ ((j + 1) + v') :: s) ∉ ps := by
                rw [show (j + 1) + v' = j + (v' + 1) by omega]
                exact hnot
              rcases h3 v' s c0 hc0 hv hnot' with ⟨cNew, hcn, hdata⟩
              refine ⟨cNew, ?_, hdata⟩
              show (c :: (seqGo dur tid idx (j + 1) rest p reg).children)[v' + 1]? = _
              rw [List.getElem?_cons_succ]
              exact hcn
      · -- tick this child
        rcases hspec with ⟨psc, hpsc, hc2, hc3⟩
        have hstripc := tickNode_strip dur tid c (p ++ [j]) reg
        cases hrc : (tickNode dur tid c (p ++ [j]) reg).state with
        | RUNNING =>
            rw [seqGo_cons_run dur tid idx j c rest p reg hj hrc]
            refine ⟨psc, hpsc, ?_, ?_⟩
            · intro k q hq
              rcases hc2 k q hq with ⟨s, st, hqe, hval, hdata⟩
              refine ⟨j, s, c, (tickNode dur tid c (p ++ [j]) reg).node, st, ?_, le_rfl,
                ?_, hval, ?_, ?_⟩
              · rw [hqe, path_append_cons]
              · simp
              · simp
              · exact hdata
            · intro v s c0 hc0 hv hnot
              cases v with
              | zero =>
                  rw [List.getElem?_cons_zero] at hc0
                  have hben : c = c0 := Option.some.inj hc0
                  subst hben
                  refine ⟨(tickNode dur tid c (p ++ [j]) reg).node, by simp, ?_⟩
                  apply hc3 s hv
                  rw [path_append_cons]
                  simpa using hnot
              | succ v' =>
                  rw [List.getElem?_cons_succ] at hc0
                  refine ⟨c0, ?_, rfl⟩
                  show ((tickNode dur tid c (p ++ [j]) reg).node :: rest)[v' + 1]? = _
                  rw [List.getElem?_cons_succ]
                  exact hc0
        | FAILURE =>
            rw [seqGo_cons_fail dur tid idx j c rest p reg hj hrc]
            refine ⟨psc, hpsc, ?_, ?_⟩
            · intro k q hq
              rcases hc2 k q hq with ⟨s, st, hqe, hval, hdata⟩
              refine ⟨j, s, c, (tickNode dur tid c (p ++ [j]) reg).node, st, ?_, le_rfl,
                ?_, hval, ?_, ?_⟩
              · rw [hqe, path_append_cons]
              · simp
              · simp
              · exact hdata
            · intro v s c0 hc0 hv hnot
              cases v with
              | zero =>
                  rw [List.getElem?_cons_zero] at hc0
                  have hben : c = c0 := Option.some.inj hc0
                  subst hben
                  refine ⟨(tickNode dur tid c (p ++ [j]) reg).node, by simp, ?_⟩
                  apply hc3 s hv
                  rw [path_append_cons]
                  simpa using hnot
              | succ v' =>
                  rw [List.getElem?_cons_succ] at hc0
                  refine ⟨c0, ?_, rfl⟩
                  show ((tickNode dur tid c (p ++ [j]) reg).node :: rest)[v' + 1]? = _
                  rw [List.getElem?_cons_succ]
                  exact hc0
        | SUCCESS =>
            rcases ih hrest (j + 1) p (tickNode dur tid c (p ++ [j]) reg).reg
              with ⟨ps2, hps2, h22, h23⟩
            rw [seqGo_cons_succ dur tid idx j c rest p reg hj hrc]
            refine ⟨psc ++ ps2, ?_, ?_, ?_⟩
            · rw [hps2, hpsc, List.append_assoc]
            · intro k q hq
              rw [List.getElem?_append] at hq
              by_cases hk : k < psc.length
              · rw [if_pos hk] at hq
                rcases hc2 k q hq with ⟨s, st, hqe, hval, hdata⟩
                refine ⟨j, s, c, (tickNode dur tid c (p ++ [j]) reg).node, st, ?_, le_rfl,
                  ?_, hval, ?_, ?_⟩
                · rw [hqe, path_append_cons]
                · simp
                · simp
                · exact hdata
              · rw [if_neg hk] at hq
                rcases h22 (k - psc.length) q hq with
                  ⟨u, s, c0, cNew, st, hqe, hju, hcs0, hval, hcn, hdata⟩
                have hlen : (tickNode dur tid c (p ++ [j]) reg).reg.length =
                    reg.length + psc.length := by
                  rw [hpsc, List.length_append]
                refine ⟨u, s, c0, cNew, st, hqe, by omega, ?_, hval, ?_, ?_⟩
                · rw [show u - j = (u - (j + 1)) + 1 by omega, List.getElem?_cons_succ]
                  exact hcs0
                · show ((tickNode dur tid c (p ++ [j]) reg).node ::
                      (seqGo dur tid idx (j + 1) rest p
                        (tickNode dur tid c (p ++ [j]) reg).reg).children)[u - j]? = _
                  rw [show u - j = (u - (j + 1)) + 1 by omega, List.getElem?_cons_succ]
                  exact hcn
                · rw [hdata, hlen, show reg.length + psc.length + (k - psc.length) =
                    reg.length + k by omega]
            · intro v s c0 hc0 hv hnot
              cases v with
              | zero =>
                  rw [List.getElem?_cons_zero] at hc0
                  have hben : c = c0 := Option.some.inj hc0
                  subst hben
                  refine ⟨(tickNode dur tid c (p ++ [j]) reg).node, by simp, ?_⟩
                  apply hc3 s hv
                  rw [path_append_cons]
                  intro hmem
                  exact hnot (by
                    simp only [Nat.add_zero] at *
                    exact List.mem_append.mpr (Or.inl hmem))
              | succ v' =>
                  rw [List.getElem?_cons_succ] at hc0
                  have hnot' : (p ++ ((j + 1) + v') :: s) ∉ ps2 := by
                    intro hmem
                    apply hnot
                    rw [show j + (v' + 1) = (j + 1) + v' by omega]
                    exact List.mem_append.mpr (Or.inr hmem)
                  rcases h23 v' s c0 hc0 hv hnot' with ⟨cNew, hcn, hdata⟩
                  refine ⟨cNew, ?_, hdata⟩
                  show ((tickNode dur tid c (p ++ [j]) reg).node ::
                      (seqGo dur tid idx (j + 1) rest p
                        (tickNode dur tid c (p ++ [j]) reg).reg).children)[v' + 1]? = _
                  rw [List.getElem?_cons_succ]
                  exact hcn

theorem selGo_exec_of (dur : Nat → Nat) (tid : Nat) :
    ∀ (cs : List Node),
      (∀ c ∈ cs, ∀ (p : Path) (reg : List Path), TickSpec dur tid c p reg) →
      ∀ (j : Nat) (p : Path) (reg : List Path), SelSpec dur tid j cs p reg := by
  intro cs
  induction cs with
  | nil =>
      intro _ j p reg
      refine ⟨[], ?_, ?_, ?_⟩
      · simp [selGo_nil]
      · intro k q hq
        simp at hq
      · intro v s c hc _ _
        simp at hc
  | cons c rest ih =>
      intro hcs j p reg
      unfold SelSpec
      have hspec := hcs c (List.mem_cons_self c rest) (p ++ [j]) reg
      have hrest : ∀ c' ∈ rest, ∀ (p : Path) (reg : List Path), TickSpec dur tid c' p reg :=
        fun c' hc' => hcs c' (List.mem_cons_of_mem c hc')
      rcases hspec with ⟨psc, hpsc, hc2, hc3⟩
      cases hrc : (tickNode dur tid c (p ++ [j]) reg).state with
      | RUNNING =>
          rw [selGo_cons_run dur tid j c rest p reg hrc]
          refine ⟨psc, hpsc, ?_, ?_⟩
          · intro k q hq
            rcases hc2 k q hq with ⟨s, st, hqe, hval, hdata⟩
            refine ⟨j, s, c, (tickNode dur tid c (p ++ [j]) reg).node, st, ?_, le_rfl,
              ?_, hval, ?_, ?_⟩
            · rw [hqe, path_append_cons]
            · simp
            · simp
            · exact hdata
          · intro v s c0 hc0 hv hnot
            cases v with
            | zero =>
                rw [List.getElem?_cons_zero] at hc0
                have hben : c = c0 := Option.some.inj hc0
                subst hben
                refine ⟨(tickNode dur tid c (p ++ [j]) reg).node, by simp, ?_⟩
                apply hc3 s hv
                rw [path_append_cons]
                simpa using hnot
            | succ v' =>
                rw [List.getElem?_cons_succ] at hc0
                refine ⟨c0, ?_, rfl⟩
                show ((tickNode dur tid c (p ++ [j]) reg).node :: rest)[v' + 1]? = _
                rw [List.getElem?_cons_succ]
                exact hc0
      | SUCCESS =>
          rw [selGo_cons_succ dur tid j c rest p reg hrc]
          refine ⟨psc, hpsc, ?_, ?_⟩
          · intro k q hq
            rcases hc2 k q hq with ⟨s, st, hqe, hval, hdata⟩
            refine ⟨j, s, c, (tickNode dur tid c (p ++ [j]) reg).node, st, ?_, le_rfl,
              ?_, hval, ?_, ?_⟩
            · rw [hqe, path_append_cons]
            · simp
            · simp
            · exact hdata
          · intro v s c0 hc0 hv hnot
            cases v with
            | zero =>
                rw [List.getElem?_cons_zero] at hc0
                have hben : c = c0 := Option.some.inj hc0
                subst hben
                refine ⟨(tickNode dur tid c (p ++ [j]) reg).node, by simp, ?_⟩
                apply hc3 s hv
                rw [path_append_cons]
                simpa using hnot
            | succ v' =>
                rw [List.getElem?_cons_succ] at hc0
                refine ⟨c0, ?_, rfl⟩
                show ((tickNode dur tid c (p ++ [j]) reg).node :: rest)[v' + 1]? = _
                rw [List.getElem?_cons_succ]
                exact hc0
      | FAILURE =>
          rcases ih hrest (j + 1) p (tickNode dur tid c (p ++ [j]) reg).reg
            with ⟨ps2, hps2, h22, h23⟩
          rw [selGo_cons_fail dur tid j c rest p reg hrc]
          refine ⟨psc ++ ps2, ?_, ?_, ?_⟩
          · rw [hps2, hpsc, List.append_assoc]
          · intro k q hq
            rw [List.getElem?_append] at hq
            by_cases hk : k < psc.length
            · rw [if_pos hk] at hq
              rcases hc2 k q hq with ⟨s, st, hqe, hval, hdata⟩
              refine ⟨j, s, c, (tickNode dur tid c (p ++ [j]) reg).node, st, ?_, le_rfl,
                ?_, hval, ?_, ?_⟩
              · rw [hqe, path_append_cons]
              · simp
              · simp
              · exact hdata
            · rw [if_neg hk] at hq
              rcases h22 (k - psc.length) q hq with
                ⟨u, s, c0, cNew, st, hqe, hju, hcs0, hval, hcn, hdata⟩
              have hlen : (tickNode dur tid c (p ++ [j]) reg).reg.length =
                  reg.length + psc.length := by
                rw [hpsc, List.length_append]
              refine ⟨u, s, c0, cNew, st, hqe, by omega, ?_, hval, ?_, ?_⟩
              · rw [show u - j = (u - (j + 1)) + 1 by omega, List.getElem?_cons_succ]
                exact hcs0
              · show ((tickNode dur tid c (p ++ [j]) reg).node ::
                    (selGo dur tid (j + 1) rest p
                      (tickNode dur tid c (p ++ [j]) reg).reg).children)[u - j]? = _
                rw [show u - j = (u - (j + 1)) + 1 by omega, List.getElem?_cons_succ]
                exact hcn
              · rw [hdata, hlen, show reg.length + psc.length + (k - psc.length) =
                  reg.length + k by omega]
          · intro v s c0 hc0 hv hnot
            cases v with
            | zero =>
                rw [List.getElem?_cons_zero] at hc0
                have hben : c = c0 := Option.some.inj hc0
                subst hben
                refine ⟨(tickNode dur tid c (p ++ [j]) reg).node, by simp, ?_⟩
                apply hc3 s hv
                rw [path_append_cons]
                intro hmem
                exact hnot (by
                  simp only [Nat.add_zero] at *
                  exact List.mem_append.mpr (Or.inl hmem))
            | succ v' =>
                rw [List.getElem?_cons_succ] at hc0
                have hnot' : (p ++ ((j + 1) + v') :: s) ∉ ps2 := by
                  intro hmem
                  apply hnot
                  rw [show j + (v' + 1) = (j + 1) + v' by omega]
                  exact List.mem_append.mpr (Or.inr hmem)
                rcases h23 v' s c0 hc0 hv hnot' with ⟨cNew, hcn, hdata⟩
                refine ⟨cNew, ?_, hdata⟩
                show ((tickNode dur tid c (p ++ [j]) reg).node ::
                    (selGo dur tid (j + 1) rest p
                      (tickNode dur tid c (p ++ [j]) reg).reg).children)[v' + 1]? = _
                rw [List.getElem?_cons_succ]
                exact hcn

theorem strip_eq_of_getElem {l1 l2 : List Node}
    (h : l1.map strip = l2.map strip) {v : Nat} {c cNew : Node}
    (hc : l2[v]? = some c) (hcn : l1[v]? = some cNew) : strip cNew = strip c := by
  rcases strip_getElem_of_map_eq h hc with ⟨x, hx, hsx⟩
  rw [hcn] at hx
  rw [show cNew = x from Option.some.inj hx]
  exact hsx

theorem tickNode_reg_seq (dur : Nat → Nat) (tid : Nat) (nm : String) (d : NodeData)
    (idx : Nat) (cs : List Node) (p : Path) (reg : List Path) :
    (tickNode dur tid (.Sequence nm d idx cs) p reg).reg =
      (seqGo dur tid idx 0 cs p reg).reg ++ [p] := by
  rw [tickNode_seq]

theorem tickNode_children_seq (dur : Nat → Nat) (tid : Nat) (nm : String) (d : NodeData)
    (idx : Nat) (cs : List Node) (p : Path) (reg : List Path) :
    (tickNode dur tid (.Sequence nm d idx cs) p reg).node.children =
      (seqGo dur tid idx 0 cs p reg).children := by
  rw [tickNode_seq]
  rfl

theorem tickNode_data_seq (dur : Nat → Nat) (tid : Nat) (nm : String) (d : NodeData)
    (idx : Nat) (cs : List Node) (p : Path) (reg : List Path) :
    (tickNode dur tid (.Sequence nm d idx cs) p reg).node.data =
      finish_data tid (seqGo dur tid idx 0 cs p reg).state
        (seqGo dur tid idx 0 cs p reg).reg.length
        (dur (seqGo dur tid idx 0 cs p reg).reg.length) d := by
  rw [tickNode_seq]
  rfl

theorem tickNode_reg_sel (dur : Nat → Nat) (tid : Nat) (nm : String) (d : NodeData)
    (cs : List Node) (p : Path) (reg : List Path) :
    (tickNode dur tid (.Selector nm d cs) p reg).reg =
      (selGo dur tid 0 cs p reg).reg ++ [p] := by
  rw [tickNode_sel]

theorem tickNode_children_sel (dur : Nat → Nat) (tid : Nat) (nm : String) (d : NodeData)
    (cs : List Node) (p : Path) (reg : List Path) :
    (tickNode dur tid (.Selector nm d cs) p reg).node.children =
      (selGo dur tid 0 cs p reg).children := by
  rw [tickNode_sel]
  rfl

theorem tickNode_data_sel (dur : Nat → Nat) (tid : Nat) (nm : String) (d : NodeData)
    (cs : List Node) (p : Path) (reg : List Path) :
    (tickNode dur tid (.Selector nm d cs) p reg).node.data =
      finish_data tid (selGo dur tid 0 cs p reg).state
        (selGo dur tid 0 cs p reg).reg.length
        (dur (selGo dur tid 0 cs p reg).reg.length) d := by
  rw [tickNode_sel]
  rfl

/-- The per-node account of a full tick call (the central execution lemma). -/
theorem tickNode_exec (dur : Nat → Nat) (tid : Nat) :
    ∀ (t : Node) (p : Path) (reg : List Path), TickSpec dur tid t p reg := by
  refine node_ind ?_
  intro t ih p reg
  unfold TickSpec
  cases t with
  | Sequence nm d idx cs =>
      have ih' : ∀ c ∈ cs, ∀ (p' : Path) (reg' : List Path), TickSpec dur tid c p' reg' := by
        simpa [Node.children] using ih
      rcases seqGo_exec_of dur tid idx cs ih' 0 p reg with ⟨ps0, hps, h2, h3⟩
      have hstrip : (seqGo dur tid idx 0 cs p reg).children.map strip = cs.map strip :=
        seqGo_strip_of dur tid cs
          (fun c _ p' reg' => tickNode_strip dur tid c p' reg') idx 0 p reg
      refine ⟨ps0 ++ [p], ?_, ?_, ?_⟩
      · rw [tickNode_reg_seq, hps, List.append_assoc]
      · intro k q hq
        rw [List.getElem?_append] at hq
        by_cases hk : k < ps0.length
        · rw [if_pos hk] at hq
          rcases h2 k q hq with ⟨u, s, c, cNew, st, hqe, _, hcs0, hval, hcn, hdata⟩
          rw [Nat.sub_zero] at hcs0 hcn
          have hvNew : validPath cNew s :=
            (validPath_iff_of_strip (strip_eq_of_getElem hstrip hcs0 hcn) s).mpr hval
          have hcT : (Node.Sequence nm d idx cs).children[u]? = some c := by
            show cs[u]? = some c
            exact hcs0
          have hcR : (tickNode dur tid (.Sequence nm d idx cs) p reg).node.children[u]? =
              some cNew := by
            rw [tickNode_children_seq]
            exact hcn
          refine ⟨u :: s, st, hqe, validPath_cons_of hcT hval, ?_⟩
          have hDR : dataAt (tickNode dur tid (.Sequence nm d idx cs) p reg).node (u :: s) =
              dataAt cNew s := by
            rcases Option.isSome_iff_exists.mp
              (show validPath (tickNode dur tid (.Sequence nm d idx cs) p reg).node (u :: s)
                from validPath_cons_of hcR hvNew) with ⟨x, hx⟩
            exact dataAt_cons hcR s hvNew
          rw [hDR, dataAt_cons hcT s hval]
          exact hdata
        · rw [if_neg hk] at hq
          have hkk : k - ps0.length = 0 ∧ q = p := by
            cases hkd : k - ps0.length with
            | zero =>
                rw [hkd] at hq
                rw [List.getElem?_cons_zero] at hq
                exact ⟨rfl, (Option.some.inj hq).symm⟩
            | succ k' =>
                rw [hkd] at hq
                simp at hq
          rcases hkk with ⟨hk0, hqp⟩
          have hkeq : k = ps0.length := by omega
          subst hkeq
          refine ⟨[], (seqGo dur tid idx 0 cs p reg).state, by rw [hqp]; simp,
            validPath_nil _, ?_⟩
          rw [dataAt_nil, dataAt_nil, tickNode_data_seq]
          have hlen : (seqGo dur tid idx 0 cs p reg).reg.length =
              reg.length + ps0.length := by
            rw [hps, List.length_append]
          rw [hlen]
          rfl
      · intro s hv hnot
        cases s with
        | nil =>
            exfalso
            apply hnot
            simp
        | cons v s' =>
            rcases validPath_cons hv with ⟨c, hc, hvc⟩
            have hcs0 : cs[v]? = some c := hc
            have hnot' : (p ++ (0 + v) :: s') ∉ ps0 := by
              rw [Nat.zero_add]
              intro hmem
              exact hnot (List.mem_append.mpr (Or.inl hmem))
            rcases h3 v s' c hcs0 hvc hnot' with ⟨cNew, hcn, hdata⟩
            have hvNew : validPath cNew s' :=
              (validPath_iff_of_strip (strip_eq_of_getElem hstrip hcs0 hcn) s').mpr hvc
            have hcR : (tickNode dur tid (.Sequence nm d idx cs) p reg).node.children[v]? =
                some cNew := by
              rw [tickNode_children_seq]
              exact hcn
            rw [dataAt_cons hcR s' hvNew, dataAt_cons hc s' hvc]
            exact hdata
  | Selector nm d cs =>
      have ih' : ∀ c ∈ cs, ∀ (p' : Path) (reg' : List Path), TickSpec dur tid c p' reg' := by
        simpa [Node.children] using ih
      rcases selGo_exec_of dur tid cs ih' 0 p reg with ⟨ps0, hps, h2, h3⟩
      have hstrip : (selGo dur tid 0 cs p reg).children.map strip = cs.map strip :=
        selGo_strip_of dur tid cs
          (fun c _ p' reg' => tickNode_strip dur tid c p' reg') 0 p reg
      refine ⟨ps0 ++ [p], ?_, ?_, ?_⟩
      · rw [tickNode_reg_sel, hps, List.append_assoc]
      · intro k q hq
        rw [List.getElem?_append] at hq
        by_cases hk : k < ps0.length
        · rw [if_pos hk] at hq
          rcases h2 k q hq with ⟨u, s, c, cNew, st, hqe, _, hcs0, hval, hcn, hdata⟩
          rw [Nat.sub_zero] at hcs0 hcn
          have hvNew : validPath cNew s :=
            (validPath_iff_of_strip (strip_eq_of_getElem hstrip hcs0 hcn) s).mpr hval
          have hcT : (Node.Selector nm d cs).children[u]? = some c := by
            show cs[u]? = some c
            exact hcs0
          have hcR : (tickNode dur tid (.Selector nm d cs) p reg).node.children[u]? =
              some cNew := by
            rw [tickNode_children_sel]
            exact hcn
          refine ⟨u :: s, st, hqe, validPath_cons_of hcT hval, ?_⟩
          rw [dataAt_cons hcR s hvNew, dataAt_cons hcT s hval]
          exact hdata
        · rw [if_neg hk] at hq
          have hkk : k - ps0.length = 0 ∧ q = p := by
            cases hkd : k - ps0.length with
            | zero =>
                rw [hkd] at hq
                rw [List.getElem?_cons_zero] at hq
                exact ⟨rfl, (Option.some.inj hq).symm⟩
            | succ k' =>
                rw [hkd] at hq
                simp at hq
          rcases hkk with ⟨hk0, hqp⟩
          have hkeq : k = ps0.length := by omega
          subst hkeq
          refine ⟨[], (selGo dur tid 0 cs p reg).state, by rw [hqp]; simp,
            validPath_nil _, ?_⟩
          rw [dataAt_nil, dataAt_nil, tickNode_data_sel]
          have hlen : (selGo dur tid 0 cs p reg).reg.length =
              reg.length + ps0.length := by
            rw [hps, List.length_append]
          rw [hlen]
          rfl
      · intro s hv hnot
        cases s with
        | nil =>
            exfalso
            apply hnot
            simp
        | cons v s' =>
            rcases validPath_cons hv with ⟨c, hc, hvc⟩
            have hcs0 : cs[v]? = some c := hc
            have hnot' : (p ++ (0 + v) :: s') ∉ ps0 := by
              rw [Nat.zero_add]
              intro hmem
              exact hnot (List.mem_append.mpr (Or.inl hmem))
            rcases h3 v s' c hcs0 hvc hnot' with ⟨cNew, hcn, hdata⟩
            have hvNew : validPath cNew s' :=
              (validPath_iff_of_strip (strip_eq_of_getElem hstrip hcs0 hcn) s').mpr hvc
            have hcR : (tickNode dur tid (.Selector nm d cs) p reg).node.children[v]? =
                some cNew := by
              rw [tickNode_children_sel]
              exact hcn
            rw [dataAt_cons hcR s' hvNew, dataAt_cons hc s' hvc]
            exact hdata
  | Condition nm d b =>
      rw [tickNode_cond]
      refine ⟨[p], rfl, ?_, ?_⟩
      · intro k q hq
        cases k with
        | zero =>
            rw [List.getElem?_cons_zero] at hq
            rcases (Option.some.inj hq) with rfl
            refine ⟨[], if b then .SUCCESS else .FAILURE, by simp, validPath_nil _, ?_⟩
            rw [dataAt_nil, dataAt_nil]
            simp [Node.data]
        | succ k' => simp at hq
      · intro s hv hnot
        have hs : s = [] := validPath_leaf (by simp [Node.children]) hv
        subst hs
        simp at hnot
  | Action nm d v =>
      cases v with
      | state s0 =>
          rw [tickNode_act]
          refine ⟨[p], rfl, ?_, ?_⟩
          · intro k q hq
            cases k with
            | zero =>
                rw [List.getElem?_cons_zero] at hq
                rcases (Option.some.inj hq) with rfl
                refine ⟨[], s0, by simp, validPath_nil _, ?_⟩
                rw [dataAt_nil, dataAt_nil]
                simp [Node.data]
            | succ k' => simp at hq
          · intro s hv hnot
            have hs : s = [] := validPath_leaf (by simp [Node.children]) hv
            subst hs
            simp at hnot
      | intVal n =>
          rw [tickNode_act]
          refine ⟨[p], rfl, ?_, ?_⟩
          · intro k q hq
            cases k with
            | zero =>
                rw [List.getElem?_cons_zero] at hq
                rcases (Option.some.inj hq) with rfl
                refine ⟨[], .FAILURE, by simp, validPath_nil _, ?_⟩
                rw [dataAt_nil, dataAt_nil]
                simp [Node.data]
            | succ k' => simp at hq
          · intro s hv hnot
            have hs : s = [] := validPath_leaf (by simp [Node.children]) hv
            subst hs
            simp at hnot
      | noneVal =>
          rw [tickNode_act]
          refine ⟨[p], rfl, ?_, ?_⟩
          · intro k q hq
            cases k with
            | zero =>
                rw [List.getElem?_cons_zero] at hq
                rcases (Option.some.inj hq) with rfl
                refine ⟨[], .FAILURE, by simp, validPath_nil _, ?_⟩
                rw [dataAt_nil, dataAt_nil]
                simp [Node.data]
            | succ k' => simp at hq
          · intro s hv hnot
            have hs : s = [] := validPath_leaf (by simp [Node.children]) hv
            subst hs
            simp at hnot
      | strVal s1 =>
          rw [tickNode_act]
          refine ⟨[p], rfl, ?_, ?_⟩
          · intro k q hq
            cases k with
            | zero =>
                rw [List.getElem?_cons_zero] at hq
                rcases (Option.some.inj hq) with rfl
                refine ⟨[], .FAILURE, by simp, validPath_nil _, ?_⟩
                rw [dataAt_nil, dataAt_nil]
                simp [Node.data]
            | succ k' => simp at hq
          · intro s hv hnot
            have hs : s = [] := validPath_leaf (by simp [Node.children]) hv
            subst hs
            simp at hnot

/-! ## Characterisation of the debugger's path-id assignment -/

theorem assignPathIdsList_getElem (h : String → Nat) :
    ∀ (cs : List Node) (parts : List String) (v : Nat),
      (assignPathIdsList h cs parts)[v]? = (cs[v]?).map (fun c => assignPathIds h c parts) := by
  intro cs
  induction cs with
  | nil =>
      intro parts v
      rw [assignPathIdsList]
      simp
  | cons c rest ih =>
      intro parts v
      rw [assignPathIdsList]
      cases v with
      | zero => simp
      | succ v' => simp [ih]

theorem assign_data (h : String → Nat) (t : Node) (parts : List String) :
    (assignPathIds h t parts).data = assignPid h parts t.name t.data := by
  cases t <;> rw [assignPathIds] <;> rfl

theorem assign_children (h : String → Nat) (t : Node) (parts : List String) :
    (assignPathIds h t parts).children =
      assignPathIdsList h t.children (parts ++ [t.name]) := by
  cases t with
  | Sequence nm d idx cs => rw [assignPathIds]; rfl
  | Selector nm d cs => rw [assignPathIds]; rfl
  | Condition nm d b =>
      rw [assignPathIds]
      show ([] : List Node) = assignPathIdsList h [] _
      rw [assignPathIdsList]
  | Action nm d v =>
      rw [assignPathIds]
      show ([] : List Node) = assignPathIdsList h [] _
      rw [assignPathIdsList]

theorem strip_assignPid (h : String → Nat) (parts : List String) (nm : String)
    (d : NodeData) (t : Node) : strip (t.withData (assignPid h parts nm d)) = strip t := by
  exact strip_withData t _

theorem strip_assign (h : String → Nat) :
    ∀ (t : Node) (parts : List String), strip (assignPathIds h t parts) = strip t := by
  refine node_ind ?_
  intro t ih parts
  cases t with
  | Sequence nm d idx cs =>
      have hl : (assignPathIdsList h cs (parts ++ [nm])).map strip = cs.map strip := by
        apply List.ext_getElem?
        intro v
        rw [List.getElem?_map, List.getElem?_map, assignPathIdsList_getElem]
        cases hc : cs[v]? with
        | none => simp
        | some c =>
            have hmem : c ∈ cs := by
              rcases List.getElem?_eq_some.mp hc with ⟨hlt, he⟩
              exact he ▸ List.getElem_mem hlt
            simp [ih c (by simpa [Node.children] using hmem)]
      rw [assignPathIds]
      show strip (.Sequence nm _ _ _) = _
      rw [strip, strip, stripList_eq_map, stripList_eq_map, hl]
  | Selector nm d cs =>
      have hl : (assignPathIdsList h cs (parts ++ [nm])).map strip = cs.map strip := by
        apply List.ext_getElem?
        intro v
        rw [List.getElem?_map, List.getElem?_map, assignPathIdsList_getElem]
        cases hc : cs[v]? with
        | none => simp
        | some c =>
            have hmem : c ∈ cs := by
              rcases List.getElem?_eq_some.mp hc with ⟨hlt, he⟩
              exact he ▸ List.getElem_mem hlt
            simp [ih c (by simpa [Node.children] using hmem)]
      rw [assignPathIds]
      show strip (.Selector nm _ _) = _
      rw [strip, strip, stripList_eq_map, stripList_eq_map, hl]
  | Condition nm d b => rw [assignPathIds]; rfl
  | Action nm d v => rw [assignPathIds]; rfl

/-- Full pointwise account of `_build_snapshot`'s traversal: each node's
data is its old data with `path_id` lazily assigned from the hash of its
slash-joined name path; nothing else changes. -/
theorem dataAt_assign (h : String → Nat) :
    ∀ (q : Path) (t : Node) (parts : List String), validPath t q →
      dataAt (assignPathIds h t parts) q =
        (if (dataAt t q).path_id = 0
         then { dataAt t q with path_id := hash64 h (pathStringAt t parts q) }
         else dataAt t q) := by
  intro q
  induction q with
  | nil =>
      intro t parts _
      rw [dataAt_nil, dataAt_nil, assign_data]
      rw [pathStringAt]
      rfl
  | cons v s ih =>
      intro t parts hv
      rcases validPath_cons hv with ⟨c, hc, hvc⟩
      have hac : (assignPathIds h t parts).children[v]? =
          some (assignPathIds h c (parts ++ [t.name])) := by
        rw [assign_children, assignPathIdsList_getElem, hc]
        rfl
      have hvac : validPath (assignPathIds h c (parts ++ [t.name])) s :=
        (validPath_iff_of_strip (strip_assign h c (parts ++ [t.name])) s).mpr hvc
      rw [dataAt_cons hac s hvac, dataAt_cons hc s hvc,
          ih c (parts ++ [t.name]) hvc]
      have hpath : pathStringAt t parts (v :: s) =
          pathStringAt c (parts ++ [t.name]) s := by
        rw [pathStringAt, hc]
      rw [hpath]

/-! ## The per-tick bookkeeping invariant of reachable system states -/

theorem freshList_mem : ∀ (cs : List Node), freshList cs = true →
    ∀ c ∈ cs, fresh c = true := by
  intro cs
  induction cs with
  | nil =>
      intro _ c hc
      simp at hc
  | cons c0 rest ih =>
      intro hf c hc
      rw [freshList] at hf
      rw [Bool.and_eq_true] at hf
      rcases hf with ⟨h1, h2⟩
      rcases List.mem_cons.mp hc with rfl | hc
      · exact h1
      · exact ih h2 c hc

theorem fresh_data {t : Node} (hf : fresh t = true) : t.data = initData := by
  cases t <;> rw [fresh] at hf <;> simp only [Bool.and_eq_true, decide_eq_true_eq] at hf <;>
    first
    | exact hf
    | exact hf.1
    | exact hf.1.1

theorem fresh_children {t : Node} (hf : fresh t = true) :
    ∀ c ∈ t.children, fresh c = true := by
  cases t with
  | Sequence nm d idx cs =>
      rw [fresh] at hf
      rw [Bool.and_eq_true] at hf
      exact freshList_mem cs hf.2
  | Selector nm d cs =>
      rw [fresh] at hf
      rw [Bool.and_eq_true] at hf
      exact freshList_mem cs hf.2
  | Condition nm d b =>
      intro c hc
      simp [Node.children] at hc
  | Action nm d v =>
      intro c hc
      simp [Node.children] at hc

theorem fresh_dataAt : ∀ (t : Node), fresh t = true →
    ∀ (q : Path), validPath t q → dataAt t q = initData := by
  refine node_ind ?_
  intro t ih hf q hv
  cases q with
  | nil =>
      rw [dataAt_nil]
      exact fresh_data hf
  | cons v s =>
      rcases validPath_cons hv with ⟨c, hc, hvc⟩
      have hmem : c ∈ t.children := by
        rcases List.getElem?_eq_some.mp hc with ⟨hlt, he⟩
        exact he ▸ List.getElem_mem hlt
      rw [dataAt_cons hc s hvc]
      exact ih c hmem (fresh_children hf c hmem) s hvc

/-- The bookkeeping invariant: registered paths are valid and carry their
1-based registration rank as `exec_index` (with `is_active_path` set);
every other node is inactive with `exec_index` 0. -/
def Inv (s : BTSystem) : Prop :=
  (∀ (k : Nat) (q : Path), s.registry[k]? = some q →
      validPath s.tree q ∧ (dataAt s.tree q).exec_index = k + 1 ∧
      (dataAt s.tree q).is_active_path = true) ∧
  (∀ q, validPath s.tree q → q ∉ s.registry →
      (dataAt s.tree q).exec_index = 0 ∧ (dataAt s.tree q).is_active_path = false)

theorem Inv_init (t : Node) (b : Bool) (hf : fresh t = true) : Inv (mkSystem t b) := by
  constructor
  · intro k q hq
    simp [mkSystem] at hq
  · intro q hv _
    have := fresh_dataAt t hf q hv
    rw [show (mkSystem t b).tree = t from rfl] at *
    rw [this]
    exact ⟨rfl, rfl⟩

theorem begin_tree (s : BTSystem) :
    (begin_new_tick s).tree =
      s.registry.foldl (fun t p => updateAt clearExec p t) s.tree := rfl

theorem begin_registry (s : BTSystem) : (begin_new_tick s).registry = [] := rfl

theorem begin_tick_id (s : BTSystem) : (begin_new_tick s).tick_id = s.tick_id + 1 := rfl

theorem begin_hasRoot (s : BTSystem) : (begin_new_tick s).hasRoot = s.hasRoot := rfl

theorem strip_begin (s : BTSystem) : strip (begin_new_tick s).tree = strip s.tree := by
  rw [begin_tree]
  exact strip_resetFold s.registry s.tree

/-- After `begin_new_tick`, every node of an invariant-satisfying system is
inactive with `exec_index` 0. -/
theorem begin_clean {s : BTSystem} (h : Inv s) :
    ∀ q, validPath s.tree q →
      (dataAt (begin_new_tick s).tree q).exec_index = 0 ∧
      (dataAt (begin_new_tick s).tree q).is_active_path = false := by
  intro q hv
  rw [begin_tree, dataAt_resetFold s.registry s.tree q hv]
  by_cases hmem : q ∈ s.registry
  · simp [hmem, clearExec]
  · simp only [hmem, if_false]
    exact h.2 q hv hmem

/-! ## Unfolding `BehaviorTree.tick` -/

theorem btTick_eq_noRoot (dur : Nat → Nat) (s : BTSystem) (h : s.hasRoot = false) :
    btTick dur s =
      ({ begin_new_tick s with bt_executed := [], last_snapshot := none },
       NodeState.FAILURE) := by
  unfold btTick
  simp [begin_hasRoot, h]

theorem btTick_eq_root (dur : Nat → Nat) (s : BTSystem) (h : s.hasRoot = true) :
    btTick dur s =
      ({ begin_new_tick s with
          tree := (tickNode dur (s.tick_id + 1) (begin_new_tick s).tree [] []).node,
          registry := (tickNode dur (s.tick_id + 1) (begin_new_tick s).tree [] []).reg,
          bt_executed := (tickNode dur (s.tick_id + 1) (begin_new_tick s).tree [] []).reg,
          last_snapshot := some (buildSnap (s.tick_id + 1)
            ((tickNode dur (s.tick_id + 1) (begin_new_tick s).tree [] []).reg.map
              (fun p => recordNode (s.tick_id + 1)
                (getNode (tickNode dur (s.tick_id + 1) (begin_new_tick s).tree [] []).node p)))) },
       (tickNode dur (s.tick_id + 1) (begin_new_tick s).tree [] []).state) := by
  unfold btTick
  simp [begin_hasRoot, h, begin_tick_id]

/-! ## Invariant preservation -/

theorem btTick_inv (dur : Nat → Nat) (s : BTSystem) (h : Inv s) : Inv (btTick dur s).1 := by
  cases hr : s.hasRoot with
  | false =>
      rw [btTick_eq_noRoot dur s hr]
      constructor
      · intro k q hq
        simp [begin_registry] at hq
      · intro q hv _
        have hv' : validPath s.tree q :=
          (validPath_iff_of_strip (strip_begin s) q).mp hv
        exact begin_clean h q hv'
  | true =>
      rw [btTick_eq_root dur s hr]
      rcases tickNode_exec dur (s.tick_id + 1) (begin_new_tick s).tree [] []
        with ⟨ps, hps, h2, h3⟩
      rw [List.nil_append] at hps
      have hstrip := tickNode_strip dur (s.tick_id + 1) (begin_new_tick s).tree [] []
      constructor
      · intro k q hq
        rw [show ({ begin_new_tick s with
              tree := (tickNode dur (s.tick_id + 1) (begin_new_tick s).tree [] []).node,
              registry := (tickNode dur (s.tick_id + 1) (begin_new_tick s).tree [] []).reg,
              bt_executed := (tickNode dur (s.tick_id + 1) (begin_new_tick s).tree [] []).reg,
              last_snapshot := some (buildSnap (s.tick_id + 1)
                ((tickNode dur (s.tick_id + 1) (begin_new_tick s).tree [] []).reg.map
                  (fun p => recordNode (s.tick_id + 1)
                    (getNode (tickNode dur (s.tick_id + 1)
                      (begin_new_tick s).tree [] []).node p)))) } : BTSystem).registry =
            (tickNode dur (s.tick_id + 1) (begin_new_tick s).tree [] []).reg from rfl,
          hps] at hq
        rcases h2 k q hq with ⟨s0, st, hqe, hval, hdata⟩
        rw [List.nil_append] at hqe
        subst hqe
        have hvalR : validPath
            (tickNode dur (s.tick_id + 1) (begin_new_tick s).tree [] []).node q :=
          (validPath_iff_of_strip hstrip q).mpr hval
        refine ⟨hvalR, ?_, ?_⟩
        · show (dataAt (tickNode dur (s.tick_id + 1) (begin_new_tick s).tree [] []).node
              q).exec_index = k + 1
          rw [hdata]
          simp [finish_data]
        · show (dataAt (tickNode dur (s.tick_id + 1) (begin_new_tick s).tree [] []).node
              q).is_active_path = true
          rw [hdata]
          simp [finish_data]
      · intro q hv hnot
        have hvB : validPath (begin_new_tick s).tree q :=
          (validPath_iff_of_strip hstrip q).mp hv
        have hnot' : ([] : Path) ++ q ∉ ps := by
          rw [List.nil_append]
          intro hmem
          apply hnot
          show q ∈ (tickNode dur (s.tick_id + 1) (begin_new_tick s).tree [] []).reg
          rw [hps]
          exact hmem
        have hdq := h3 q hvB hnot'
        show (dataAt (tickNode dur (s.tick_id + 1) (begin_new_tick s).tree [] []).node
            q).exec_index = 0 ∧
          (dataAt (tickNode dur (s.tick_id + 1) (begin_new_tick s).tree [] []).node
            q).is_active_path = false
        rw [hdq]
        have hvS : validPath s.tree q :=
          (validPath_iff_of_strip (strip_begin s) q).mp hvB
        exact begin_clean h q hvS

theorem Inv_setRoot (s : BTSystem) (b : Bool) (h : Inv s) :
    Inv { s with hasRoot := b } := h

theorem Inv_build (s : BTSystem) (h0 : String → Nat) (h : Inv s) :
    Inv { s with tree := assignPathIds h0 s.tree [] } := by
  constructor
  · intro k q hq
    rcases h.1 k q hq with ⟨hval, hexec, hact⟩
    have hval' : validPath (assignPathIds h0 s.tree []) q :=
      (validPath_iff_of_strip (strip_assign h0 s.tree []) q).mpr hval
    refine ⟨hval', ?_, ?_⟩
    · show (dataAt (assignPathIds h0 s.tree []) q).exec_index = k + 1
      rw [dataAt_assign h0 q s.tree [] hval]
      by_cases hp : (dataAt s.tree q).path_id = 0 <;> simp [hp, hexec]
    · show (dataAt (assignPathIds h0 s.tree []) q).is_active_path = true
      rw [dataAt_assign h0 q s.tree [] hval]
      by_cases hp : (dataAt s.tree q).path_id = 0 <;> simp [hp, hact]
  · intro q hv hnot
    have hval : validPath s.tree q :=
      (validPath_iff_of_strip (strip_assign h0 s.tree []) q).mp hv
    rcases h.2 q hval hnot with ⟨hexec, hact⟩
    constructor
    · show (dataAt (assignPathIds h0 s.tree []) q).exec_index = 0
      rw [dataAt_assign h0 q s.tree [] hval]
      by_cases hp : (dataAt s.tree q).path_id = 0 <;> simp [hp, hexec]
    · show (dataAt (assignPathIds h0 s.tree []) q).is_active_path = false
      rw [dataAt_assign h0 q s.tree [] hval]
      by_cases hp : (dataAt s.tree q).path_id = 0 <;> simp [hp, hact]

/-- Every reachable system state satisfies the bookkeeping invariant. -/
theorem reachable_inv {s : BTSystem} (h : Reachable s) : Inv s := by
  induction h with
  | init t b hf => exact Inv_init t b hf
  | tick dur hr ih => exact btTick_inv _ _ ih
  | build h0 hr ih => exact Inv_build _ h0 ih
  | setRoot b hr ih => exact Inv_setRoot _ b ih

/-! ## The snapshot sort is the identity on already-ordered records -/

theorem sortByExec_of_sorted : ∀ (l : List NodeSnapshot),
    List.Chain' (fun a b => a.exec_index ≤ b.exec_index) l → sortByExec l = l := by
  intro l
  induction l with
  | nil =>
      intro _
      rw [sortByExec]
  | cons a l ih =>
      intro hch
      rw [sortByExec, ih hch.tail]
      cases l with
      | nil => rw [insertLe]
      | cons b l' =>
          rw [insertLe]
          have hab : a.exec_index ≤ b.exec_index := by
            rcases hch with _ | ⟨hr, _⟩
            exact hr
          simp [hab]

theorem buildSnap_nodes (tid : Nat) (records : List NodeSnapshot)
    (h : List.Chain' (fun a b => a.exec_index ≤ b.exec_index) records) :
    (buildSnap tid records).nodes = records := by
  unfold buildSnap
  exact sortByExec_of_sorted records h

/-! ## Selector scan characterisation -/

theorem evalSel_all_fail : ∀ (cs : List Node),
    (∀ c ∈ cs, evalNode c = .FAILURE) → evalSel cs = .FAILURE := by
  intro cs
  induction cs with
  | nil => intro _; rw [evalSel]
  | cons c rest ih =>
      intro h
      rw [evalSel, h c (List.mem_cons_self c rest),
          ih (fun c' hc' => h c' (List.mem_cons_of_mem c hc'))]

/-- The Selector scan stops at the first child whose result is not FAILURE:
the overall state is that child's result, all later children are untouched,
and every registry entry either predates the call or lies below a child at
scan position at most `i`. -/
theorem selGo_scan (dur : Nat → Nat) (tid : Nat) :
    ∀ (cs : List Node) (i j : Nat) (p : Path) (reg : List Path) (hi : i < cs.length),
      (∀ (k : Nat) (hk : k < i), evalNode (cs.get ⟨k, by omega⟩) = .FAILURE) →
      evalNode (cs.get ⟨i, hi⟩) ≠ .FAILURE →
      (selGo dur tid j cs p reg).state = evalNode (cs.get ⟨i, hi⟩) ∧
      (∀ v, i < v → (selGo dur tid j cs p reg).children[v]? = cs[v]?) ∧
      (∀ q ∈ (selGo dur tid j cs p reg).reg,
        q ∈ reg ∨ ∃ u s, q = p ++ u :: s ∧ j ≤ u ∧ u ≤ j + i) := by
  intro cs
  induction cs with
  | nil =>
      intro i j p reg hi
      simp at hi
  | cons c rest ih =>
      intro i j p reg hi hpre hne
      rcases tickNode_exec dur tid c (p ++ [j]) reg with ⟨psc, hpsc, hc2, _⟩
      cases i with
      | zero =>
          have hcne : evalNode c ≠ .FAILURE := hne
          have hentries : ∀ q ∈ (tickNode dur tid c (p ++ [j]) reg).reg,
              q ∈ reg ∨ ∃ u s, q = p ++ u :: s ∧ j ≤ u ∧ u ≤ j + 0 := by
            intro q hq
            rw [hpsc] at hq
            rcases List.mem_append.mp hq with hq | hq
            · exact Or.inl hq
            · rcases List.getElem?_of_mem hq with ⟨n, hn⟩
              rcases hc2 n q hn with ⟨s, st, hqe, _, _⟩
              refine Or.inr ⟨j, s, ?_, le_rfl, by omega⟩
              rw [hqe, path_append_cons]
          cases hev : evalNode c with
          | FAILURE => exact absurd hev hcne
          | RUNNING =>
              have hst : (tickNode dur tid c (p ++ [j]) reg).state = .RUNNING := by
                rw [tickNode_state, hev]
              rw [selGo_cons_run dur tid j c rest p reg hst]
              refine ⟨by show NodeState.RUNNING = _; rw [show (c :: rest).get ⟨0, hi⟩ = c from rfl, hev],
                ?_, ?_⟩
              · intro v hv
                cases v with
                | zero => omega
                | succ v' =>
                    show ((tickNode dur tid c (p ++ [j]) reg).node :: rest)[v' + 1]? = _
                    rw [List.getElem?_cons_succ, List.getElem?_cons_succ]
              · exact hentries
          | SUCCESS =>
              have hst : (tickNode dur tid c (p ++ [j]) reg).state = .SUCCESS := by
                rw [tickNode_state, hev]
              rw [selGo_cons_succ dur tid j c rest p reg hst]
              refine ⟨by show NodeState.SUCCESS = _; rw [show (c :: rest).get ⟨0, hi⟩ = c from rfl, hev],
                ?_, ?_⟩
              · intro v hv
                cases v with
                | zero => omega
                | succ v' =>
                    show ((tickNode dur tid c (p ++ [j]) reg).node :: rest)[v' + 1]? = _
                    rw [List.getElem?_cons_succ, List.getElem?_cons_succ]
              · exact hentries
      | succ i' =>
          have h0 : evalNode c = .FAILURE := by
            have := hpre 0 (by omega)
            simpa using this
          have hst : (tickNode dur tid c (p ++ [j]) reg).state = .FAILURE := by
            rw [tickNode_state, h0]
          rw [selGo_cons_fail dur tid j c rest p reg hst]
          have hi' : i' < rest.length := by
            simpa using hi
          have hpre' : ∀ (k : Nat) (hk : k < i'), evalNode (rest.get ⟨k, by omega⟩) = .FAILURE := by
            intro k hk
            have := hpre (k + 1) (by omega)
            simpa using this
          have hne' : evalNode (rest.get ⟨i', hi'⟩) ≠ .FAILURE := by
            simpa using hne
          rcases ih i' (j + 1) p (tickNode dur tid c (p ++ [j]) reg).reg hi' hpre' hne'
            with ⟨hstate, hchild, hreg⟩
          refine ⟨?_, ?_, ?_⟩
          · rw [hstate]
            simp
          · intro v hv
            cases v with
            | zero => omega
            | succ v' =>
                show ((tickNode dur tid c (p ++ [j]) reg).node ::
                  (selGo dur tid (j + 1) rest p
                    (tickNode dur tid c (p ++ [j]) reg).reg).children)[v' + 1]? = _
                rw [List.getElem?_cons_succ, List.getElem?_cons_succ]
                exact hchild v' (by omega)
          · intro q hq
            rcases hreg q hq with hq2 | ⟨u, s, hqe, hju, hui⟩
            · rw [hpsc] at hq2
              rcases List.mem_append.mp hq2 with hq3 | hq3
              · exact Or.inl hq3
              · rcases List.getElem?_of_mem hq3 with ⟨n, hn⟩
                rcases hc2 n q hn with ⟨s, st, hqe, _, _⟩
                refine Or.inr ⟨j, s, ?_, le_rfl, by omega⟩
                rw [hqe, path_append_cons]
            · exact Or.inr ⟨u, s, hqe, by omega, by omega⟩

/-! ## Sequence cursor semantics, assembled -/

theorem take_succ_set {α : Type} (l : List α) (i : Nat) (a : α) (h : i < l.length) :
    (l.set i a).take (i + 1) = l.take i ++ [a] := by
  rw [List.set_eq_take_append_cons_drop, if_pos h, List.take_append_eq_append_take,
      List.take_take, List.length_take]
  have hmin : (i + 1) ⊓ i = i := by omega
  have hmin2 : i ⊓ l.length = i := by omega
  rw [hmin, hmin2, show i + 1 - i = 1 by omega, List.take_succ_cons, List.take_zero]

/-- With the cursor at or past the end of the child list, one Sequence tick
resets the cursor, returns SUCCESS, and ticks no child. -/
theorem seq_tick_past_end (dur : Nat → Nat) (tid : Nat) (nm : String) (d : NodeData)
    (idx : Nat) (cs : List Node) (p : Path) (reg : List Path) (h : cs.length ≤ idx) :
    tickNode dur tid (.Sequence nm d idx cs) p reg =
      ⟨.Sequence nm (finish_data tid .SUCCESS reg.length (dur reg.length) d) 0 cs,
       .SUCCESS, reg ++ [p]⟩ := by
  have hgo : seqGo dur tid idx 0 cs p reg = ⟨cs, 0, .SUCCESS, reg⟩ := by
    rw [seqGo_skip dur tid idx cs 0 p reg (Nat.zero_le idx), Nat.sub_zero,
        List.drop_eq_nil_of_le h, seqGo_nil, List.take_of_length_le h]
    simp
  rw [tickNode_seq, hgo]

/-- With the cursor inside the child list, one Sequence tick skips the prefix
before the cursor and ticks the cursor child first, with the registry as it
was on entry. -/
theorem seqGo_at_cursor (dur : Nat → Nat) (tid : Nat) (idx : Nat) (cs : List Node)
    (p : Path) (reg : List Path) (hidx : idx < cs.length) :
    seqGo dur tid idx 0 cs p reg =
      ⟨cs.take idx ++ (seqGo dur tid idx idx ((cs.get ⟨idx, hidx⟩) :: cs.drop (idx + 1)) p reg).children,
       (seqGo dur tid idx idx ((cs.get ⟨idx, hidx⟩) :: cs.drop (idx + 1)) p reg).index,
       (seqGo dur tid idx idx ((cs.get ⟨idx, hidx⟩) :: cs.drop (idx + 1)) p reg).state,
       (seqGo dur tid idx idx ((cs.get ⟨idx, hidx⟩) :: cs.drop (idx + 1)) p reg).reg⟩ := by
  rw [seqGo_skip dur tid idx cs 0 p reg (Nat.zero_le idx), Nat.sub_zero,
      ← List.getElem_cons_drop cs idx hidx]
  rfl

/-- A FAILURE at the cursor child: the Sequence returns FAILURE with cursor
reset to 0, only the cursor child was ticked (its siblings are untouched and
unregistered). -/
theorem seq_tick_fail (dur : Nat → Nat) (tid : Nat) (nm : String) (d : NodeData)
    (idx : Nat) (cs : List Node) (p : Path) (reg : List Path) (hidx : idx < cs.length)
    (hev : evalNode (cs.get ⟨idx, hidx⟩) = .FAILURE) :
    tickNode dur tid (.Sequence nm d idx cs) p reg =
      ⟨.Sequence nm
         (finish_data tid .FAILURE
           (tickNode dur tid (cs.get ⟨idx, hidx⟩) (p ++ [idx]) reg).reg.length
           (dur (tickNode dur tid (cs.get ⟨idx, hidx⟩) (p ++ [idx]) reg).reg.length) d) 0
         (cs.set idx (tickNode dur tid (cs.get ⟨idx, hidx⟩) (p ++ [idx]) reg).node),
       .FAILURE, (tickNode dur tid (cs.get ⟨idx, hidx⟩) (p ++ [idx]) reg).reg ++ [p]⟩ := by
  have hst : (tickNode dur tid (cs.get ⟨idx, hidx⟩) (p ++ [idx]) reg).state = .FAILURE := by
    rw [tickNode_state, hev]
  have hrun : seqGo dur tid idx idx ((cs.get ⟨idx, hidx⟩) :: cs.drop (idx + 1)) p reg =
      ⟨(tickNode dur tid (cs.get ⟨idx, hidx⟩) (p ++ [idx]) reg).node :: cs.drop (idx + 1), 0,
       .FAILURE, (tickNode dur tid (cs.get ⟨idx, hidx⟩) (p ++ [idx]) reg).reg⟩ :=
    seqGo_cons_fail dur tid idx idx _ _ p reg (by omega) hst
  rw [tickNode_seq, seqGo_at_cursor dur tid idx cs p reg hidx, hrun]
  rw [show cs.set idx (tickNode dur tid (cs.get ⟨idx, hidx⟩) (p ++ [idx]) reg).node =
      cs.take idx ++ (tickNode dur tid (cs.get ⟨idx, hidx⟩) (p ++ [idx]) reg).node ::
        cs.drop (idx + 1) by
    rw [List.set_eq_take_append_cons_drop, if_pos hidx]]

/-- A RUNNING at the cursor child: the Sequence returns RUNNING and the
cursor stays at that child; siblings are untouched and unregistered. -/
theorem seq_tick_run (dur : Nat → Nat) (tid : Nat) (nm : String) (d : NodeData)
    (idx : Nat) (cs : List Node) (p : Path) (reg : List Path) (hidx : idx < cs.length)
    (hev : evalNode (cs.get ⟨idx, hidx⟩) = .RUNNING) :
    tickNode dur tid (.Sequence nm d idx cs) p reg =
      ⟨.Sequence nm
         (finish_data tid .RUNNING
           (tickNode dur tid (cs.get ⟨idx, hidx⟩) (p ++ [idx]) reg).reg.length
           (dur (tickNode dur tid (cs.get ⟨idx, hidx⟩) (p ++ [idx]) reg).reg.length) d) idx
         (cs.set idx (tickNode dur tid (cs.get ⟨idx, hidx⟩) (p ++ [idx]) reg).node),
       .RUNNING, (tickNode dur tid (cs.get ⟨idx, hidx⟩) (p ++ [idx]) reg).reg ++ [p]⟩ := by
  have hst : (tickNode dur tid (cs.get ⟨idx, hidx⟩) (p ++ [idx]) reg).state = .RUNNING := by
    rw [tickNode_state, hev]
  have hrun : seqGo dur tid idx idx ((cs.get ⟨idx, hidx⟩) :: cs.drop (idx + 1)) p reg =
      ⟨(tickNode dur tid (cs.get ⟨idx, hidx⟩) (p ++ [idx]) reg).node :: cs.drop (idx + 1), idx,
       .RUNNING, (tickNode dur tid (cs.get ⟨idx, hidx⟩) (p ++ [idx]) reg).reg⟩ :=
    seqGo_cons_run dur tid idx idx _ _ p reg (by omega) hst
  rw [tickNode_seq, seqGo_at_cursor dur tid idx cs p reg hidx, hrun]
  rw [show cs.set idx (tickNode dur tid (cs.get ⟨idx, hidx⟩) (p ++ [idx]) reg).node =
      cs.take idx ++ (tickNode dur tid (cs.get ⟨idx, hidx⟩) (p ++ [idx]) reg).node ::
        cs.drop (idx + 1) by
    rw [List.set_eq_take_append_cons_drop, if_pos hidx]]

/-- A SUCCESS at the cursor child: the tick continues, within the same call,
exactly as a tick of the Sequence with the cursor advanced past that child
(and the registry extended by the child's registrations). -/
theorem seq_tick_succ (dur : Nat → Nat) (tid : Nat) (nm : String) (d : NodeData)
    (idx : Nat) (cs : List Node) (p : Path) (reg : List Path) (hidx : idx < cs.length)
    (hev : evalNode (cs.get ⟨idx, hidx⟩) = .SUCCESS) :
    tickNode dur tid (.Sequence nm d idx cs) p reg =
      tickNode dur tid
        (.Sequence nm d (idx + 1)
          (cs.set idx (tickNode dur tid (cs.get ⟨idx, hidx⟩) (p ++ [idx]) reg).node)) p
        (tickNode dur tid (cs.get ⟨idx, hidx⟩) (p ++ [idx]) reg).reg := by
  have hst : (tickNode dur tid (cs.get ⟨idx, hidx⟩) (p ++ [idx]) reg).state = .SUCCESS := by
    rw [tickNode_state, hev]
  have hlen : (cs.set idx (tickNode dur tid (cs.get ⟨idx, hidx⟩) (p ++ [idx]) reg).node).length =
      cs.length := by
    rw [List.length_set]
  have hL : seqGo dur tid idx 0 cs p reg =
      ⟨cs.take idx ++ (tickNode dur tid (cs.get ⟨idx, hidx⟩) (p ++ [idx]) reg).node ::
         (seqGo dur tid idx (idx + 1) (cs.drop (idx + 1)) p
           (tickNode dur tid (cs.get ⟨idx, hidx⟩) (p ++ [idx]) reg).reg).children,
       (seqGo dur tid idx (idx + 1) (cs.drop (idx + 1)) p
         (tickNode dur tid (cs.get ⟨idx, hidx⟩) (p ++ [idx]) reg).reg).index,
       (seqGo dur tid idx (idx + 1) (cs.drop (idx + 1)) p
         (tickNode dur tid (cs.get ⟨idx, hidx⟩) (p ++ [idx]) reg).reg).state,
       (seqGo dur tid idx (idx + 1) (cs.drop (idx + 1)) p
         (tickNode dur tid (cs.get ⟨idx, hidx⟩) (p ++ [idx]) reg).reg).reg⟩ := by
    rw [seqGo_at_cursor dur tid idx cs p reg hidx,
        seqGo_cons_succ dur tid idx idx _ _ p reg (by omega) hst]
  have hR : seqGo dur tid (idx + 1) 0
      (cs.set idx (tickNode dur tid (cs.get ⟨idx, hidx⟩) (p ++ [idx]) reg).node) p
      (tickNode dur tid (cs.get ⟨idx, hidx⟩) (p ++ [idx]) reg).reg =
      ⟨cs.take idx ++ (tickNode dur tid (cs.get ⟨idx, hidx⟩) (p ++ [idx]) reg).node ::
         (seqGo dur tid (idx + 1) (idx + 1) (cs.drop (idx + 1)) p
           (tickNode dur tid (cs.get ⟨idx, hidx⟩) (p ++ [idx]) reg).reg).children,
       (seqGo dur tid (idx + 1) (idx + 1) (cs.drop (idx + 1)) p
         (tickNode dur tid (cs.get ⟨idx, hidx⟩) (p ++ [idx]) reg).reg).index,
       (seqGo dur tid (idx + 1) (idx + 1) (cs.drop (idx + 1)) p
         (tickNode dur tid (cs.get ⟨idx, hidx⟩) (p ++ [idx]) reg).reg).state,
       (seqGo dur tid (idx + 1) (idx + 1) (cs.drop (idx + 1)) p
         (tickNode dur tid (cs.get ⟨idx, hidx⟩) (p ++ [idx]) reg).reg).reg⟩ := by
    rw [seqGo_skip dur tid (idx + 1) _ 0 p _ (Nat.zero_le (idx + 1)), Nat.sub_zero]
    rw [List.drop_set, if_pos (by omega), take_succ_set cs idx _ hidx]
    simp
  have hirr : seqGo dur tid idx (idx + 1) (cs.drop (idx + 1)) p
      (tickNode dur tid (cs.get ⟨idx, hidx⟩) (p ++ [idx]) reg).reg =
      seqGo dur tid (idx + 1) (idx + 1) (cs.drop (idx + 1)) p
        (tickNode dur tid (cs.get ⟨idx, hidx⟩) (p ++ [idx]) reg).reg :=
    seqGo_idx_irrel dur tid (cs.drop (idx + 1)) idx (idx + 1) (idx + 1) p _
      (by omega) (by omega)
  rw [tickNode_seq, tickNode_seq, hL, hR, hirr]

/-- One Sequence tick never touches or registers the children strictly before
the cursor. -/
theorem seq_tick_prefix_untouched (dur : Nat → Nat) (tid : Nat) (nm : String)
    (d : NodeData) (idx : Nat) (cs : List Node) (p : Path) (reg : List Path)
    (h : idx ≤ cs.length) :
    (tickNode dur tid (.Sequence nm d idx cs) p reg).node.children.take idx = cs.take idx ∧
    (∀ q ∈ (tickNode dur tid (.Sequence nm d idx cs) p reg).reg,
      q ∈ reg ∨ q = p ∨ ∃ u s, q = p ++ u :: s ∧ idx ≤ u) := by
  have hlen : (cs.take idx).length = idx := by
    rw [List.length_take]
    omega
  rcases seqGo_exec_of dur tid idx (cs.drop idx)
    (fun c _ p' reg' => tickNode_exec dur tid c p' reg') idx p reg
    with ⟨ps, hps, h2, _⟩
  constructor
  · rw [tickNode_children_seq, seqGo_skip dur tid idx cs 0 p reg (Nat.zero_le idx),
        Nat.sub_zero]
    show (cs.take idx ++ _).take idx = _
    rw [List.take_append_eq_append_take, hlen, Nat.sub_self, List.take_zero,
        List.append_nil, List.take_take]
    rw [show idx ⊓ idx = idx by omega]
  · intro q hq
    rw [tickNode_reg_seq, seqGo_skip dur tid idx cs 0 p reg (Nat.zero_le idx),
        Nat.sub_zero] at hq
    have hq' : q ∈ (seqGo dur tid idx idx (cs.drop idx) p reg).reg ++ [p] := hq
    rcases List.mem_append.mp hq' with hq | hq
    · rw [hps] at hq
      rcases List.mem_append.mp hq with hq | hq
      · exact Or.inl hq
      · rcases List.getElem?_of_mem hq with ⟨n, hn⟩
        rcases h2 n q hn with ⟨u, s, _, _, _, hqe, hju, _⟩
        exact Or.inr (Or.inr ⟨u, s, hqe, hju⟩)
    · rcases List.mem_singleton.mp hq with rfl
      exact Or.inr (Or.inl rfl)

/-! ## Path ids survive ticks -/

theorem tickNode_path_id (dur : Nat → Nat) (tid : Nat) (t : Node) (p : Path)
    (reg : List Path) (q : Path) (hv : validPath t q) :
    (dataAt (tickNode dur tid t p reg).node q).path_id = (dataAt t q).path_id := by
  rcases tickNode_exec dur tid t p reg with ⟨ps, _, h2, h3⟩
  by_cases hmem : (p ++ q) ∈ ps
  · rcases List.getElem?_of_mem hmem with ⟨k, hk⟩
    rcases h2 k (p ++ q) hk with ⟨s, st, hqe, _, hdata⟩
    have hsq : q = s := List.append_cancel_left hqe
    subst hsq
    rw [hdata]
    rfl
  · rw [h3 q hv hmem]

theorem btTick_path_id (dur : Nat → Nat) (s : BTSystem) (q : Path)
    (hv : validPath s.tree q) :
    (dataAt (btTick dur s).1.tree q).path_id = (dataAt s.tree q).path_id := by
  have hb : (dataAt (begin_new_tick s).tree q).path_id = (dataAt s.tree q).path_id := by
    rw [begin_tree, dataAt_resetFold s.registry s.tree q hv]
    by_cases hmem : q ∈ s.registry <;> simp [hmem, clearExec]
  cases hr : s.hasRoot with
  | false =>
      rw [btTick_eq_noRoot dur s hr]
      exact hb
  | true =>
      rw [btTick_eq_root dur s hr]
      show (dataAt (tickNode dur (s.tick_id + 1) (begin_new_tick s).tree [] []).node
        q).path_id = _
      have hvb : validPath (begin_new_tick s).tree q :=
        (validPath_iff_of_strip (strip_begin s) q).mpr hv
      rw [tickNode_path_id dur (s.tick_id + 1) (begin_new_tick s).tree [] [] q hvb, hb]

theorem pathStringAt_of_strip : ∀ (q : Path) (t1 t2 : Node) (parts : List String),
    strip t1 = strip t2 → pathStringAt t1 parts q = pathStringAt t2 parts q := by
  intro q
  induction q with
  | nil =>
      intro t1 t2 parts h
      rw [pathStringAt, pathStringAt]
      rw [show t1.name = t2.name from by rw [← strip_name t1, ← strip_name t2, h]]
  | cons i q' ih =>
      intro t1 t2 parts h
      have hmap : t1.children.map strip = t2.children.map strip := by
        rw [← stripList_eq_map, ← stripList_eq_map, ← strip_children, ← strip_children, h]
      have hname : t1.name = t2.name := by
        rw [← strip_name t1, ← strip_name t2, h]
      rw [pathStringAt, pathStringAt]
      cases hc2 : t2.children[i]? with
      | none =>
          have hc1 : t1.children[i]? = none := by
            have := congrArg (fun l => l[i]?) hmap
            simp only [List.getElem?_map, hc2] at this
            cases hx : t1.children[i]? with
            | none => rfl
            | some c1 =>
                rw [hx] at this
                simp at this
          rw [hc1]
      | some c2 =>
          rcases strip_getElem_of_map_eq hmap hc2 with ⟨c1, hc1, hs1⟩
          rw [hc1]
          show pathStringAt c1 (parts ++ [t1.name]) q' = pathStringAt c2 (parts ++ [t2.name]) q'
          rw [ih c1 c2 (parts ++ [t1.name]) hs1, hname]

/-! ## Concrete material for witnesses and counterexamples -/

/-- Zero-duration oracle for concrete runs. -/
def d0 : Nat → Nat := fun _ => 0

/-- A concrete stand-in for the unspecified 64-bit hash. -/
def hLen : String → Nat := fun s => s.length

/-- The spec's running example: Sequence "S" over A (always SUCCESS) and
B (always RUNNING). -/
def exTree : Node :=
  .Sequence "S" initData 0
    [.Action "A" initData (.state .SUCCESS), .Action "B" initData (.state .RUNNING)]

def exSys : BTSystem := mkSystem exTree true

/-- The same engine state after one tick, with `self.root` then cleared. -/
def exSysNoRoot : BTSystem := { (btTick d0 exSys).1 with hasRoot := false }

/-- Selector "Sel" over A (FAILURE), B (RUNNING), C (SUCCESS). -/
def exSel : Node :=
  .Selector "Sel" initData
    [.Action "A" initData (.state .FAILURE), .Action "B" initData (.state .RUNNING),
     .Action "C" initData (.state .SUCCESS)]

/-! ## The claims -/

/-- C1: one `Sequence.tick()` evaluates the children in fixed order starting
at the persisted cursor: with no children (or the cursor at/past the end)
the cursor resets to 0 and the Sequence returns SUCCESS without ticking
anything; a FAILURE at the cursor child resets the cursor to 0 and returns
FAILURE with the remaining children untouched and unregistered; a SUCCESS at
the cursor child advances the cursor and continues within the same tick. -/
theorem claim_C1_sequence_tick (dur : Nat → Nat) (tid : Nat) (nm : String)
    (d : NodeData) (idx : Nat) (cs : List Node) (p : Path) (reg : List Path) :
    (cs = [] → tickNode dur tid (.Sequence nm d idx cs) p reg =
      ⟨.Sequence nm (finish_data tid .SUCCESS reg.length (dur reg.length) d) 0 cs,
       .SUCCESS, reg ++ [p]⟩) ∧
    (cs.length ≤ idx → tickNode dur tid (.Sequence nm d idx cs) p reg =
      ⟨.Sequence nm (finish_data tid .SUCCESS reg.length (dur reg.length) d) 0 cs,
       .SUCCESS, reg ++ [p]⟩) ∧
    (∀ (hidx : idx < cs.length), evalNode (cs.get ⟨idx, hidx⟩) = .FAILURE →
      tickNode dur tid (.Sequence nm d idx cs) p reg =
        ⟨.Sequence nm
           (finish_data tid .FAILURE
             (tickNode dur tid (cs.get ⟨idx, hidx⟩) (p ++ [idx]) reg).reg.length
             (dur (tickNode dur tid (cs.get ⟨idx, hidx⟩) (p ++ [idx]) reg).reg.length) d) 0
           (cs.set idx (tickNode dur tid (cs.get ⟨idx, hidx⟩) (p ++ [idx]) reg).node),
         .FAILURE, (tickNode dur tid (cs.get ⟨idx, hidx⟩) (p ++ [idx]) reg).reg ++ [p]⟩) ∧
    (∀ (hidx : idx < cs.length), evalNode (cs.get ⟨idx, hidx⟩) = .SUCCESS →
      tickNode dur tid (.Sequence nm d idx cs) p reg =
        tickNode dur tid
          (.Sequence nm d (idx + 1)
            (cs.set idx (tickNode dur tid (cs.get ⟨idx, hidx⟩) (p ++ [idx]) reg).node)) p
          (tickNode dur tid (cs.get ⟨idx, hidx⟩) (p ++ [idx]) reg).reg) := by
  refine ⟨?_, ?_, ?_, ?_⟩
  · intro hcs
    subst hcs
    exact seq_tick_past_end dur tid nm d idx [] p reg (by simp)
  · intro h
    exact seq_tick_past_end dur tid nm d idx cs p reg h
  · intro hidx hev
    exact seq_tick_fail dur tid nm d idx cs p reg hidx hev
  · intro hidx hev
    exact seq_tick_succ dur tid nm d idx cs p reg hidx hev

/-- C1 witness: cursor child FAILURE on a concrete two-child Sequence. -/
theorem claim_C1_sequence_tick_witness :
    (tickNode d0 1 (.Sequence "S" initData 0
        [Node.Action "F" initData (.state .FAILURE),
         Node.Action "C" initData (.state .SUCCESS)]) [] []).state = .FAILURE ∧
    (tickNode d0 1 (.Sequence "S" initData 2
        [Node.Action "F" initData (.state .FAILURE),
         Node.Action "C" initData (.state .SUCCESS)]) [] []).state = .SUCCESS := by
  constructor
  · have h := (claim_C1_sequence_tick d0 1 "S" initData 0
      [Node.Action "F" initData (.state .FAILURE),
       Node.Action "C" initData (.state .SUCCESS)] [] []).2.2.1
      (by decide) (by decide)
    rw [h]
  · have h := (claim_C1_sequence_tick d0 1 "S" initData 2
      [Node.Action "F" initData (.state .FAILURE),
       Node.Action "C" initData (.state .SUCCESS)] [] []).2.1 (by decide)
    rw [h]

/-- C2: one `Selector.tick()` scans the children in fixed order from the
first child every tick: if every child evaluates to FAILURE (or there are
none) the Selector returns FAILURE; otherwise the first child whose result
is not FAILURE decides the Selector's state, and no later child is ticked
or registered. -/
theorem claim_C2_selector_tick (dur : Nat → Nat) (tid : Nat) (nm : String)
    (d : NodeData) (cs : List Node) (p : Path) (reg : List Path) :
    ((∀ c ∈ cs, evalNode c = .FAILURE) →
      (tickNode dur tid (.Selector nm d cs) p reg).state = .FAILURE) ∧
    (cs = [] → (tickNode dur tid (.Selector nm d cs) p reg).state = .FAILURE) ∧
    (∀ (i : Nat) (hi : i < cs.length),
      (∀ (k : Nat) (hk : k < i), evalNode (cs.get ⟨k, by omega⟩) = .FAILURE) →
      evalNode (cs.get ⟨i, hi⟩) ≠ .FAILURE →
      (tickNode dur tid (.Selector nm d cs) p reg).state = evalNode (cs.get ⟨i, hi⟩) ∧
      (∀ v, i < v →
        (tickNode dur tid (.Selector nm d cs) p reg).node.children[v]? = cs[v]?) ∧
      (∀ q ∈ (tickNode dur tid (.Selector nm d cs) p reg).reg,
        q ∈ reg ∨ q = p ∨ ∃ u s, q = p ++ u :: s ∧ u ≤ i)) := by
  refine ⟨?_, ?_, ?_⟩
  · intro hall
    rw [tickNode_state]
    rw [evalNode]
    exact evalSel_all_fail cs hall
  · intro hcs
    subst hcs
    rw [tickNode_state, evalNode, evalSel]
  · intro i hi hpre hne
    rcases selGo_scan dur tid cs i 0 p reg hi hpre hne with ⟨hstate, hchild, hreg⟩
    refine ⟨?_, ?_, ?_⟩
    · rw [tickNode_sel]
      exact hstate
    · intro v hv
      rw [tickNode_children_sel]
      exact hchild v hv
    · intro q hq
      rw [tickNode_reg_sel] at hq
      rcases List.mem_append.mp hq with hq | hq
      · rcases hreg q hq with hq2 | ⟨u, s, hqe, _, hui⟩
        · exact Or.inl hq2
        · exact Or.inr (Or.inr ⟨u, s, hqe, by omega⟩)
      · rcases List.mem_singleton.mp hq with rfl
        exact Or.inr (Or.inl rfl)

/-- C2 witness: Selector[A(FAILURE), B(RUNNING), C(SUCCESS)] returns RUNNING
and never ticks C. -/
theorem claim_C2_selector_tick_witness :
    (tickNode d0 1 exSel [] []).state = .RUNNING ∧
    (tickNode d0 1 exSel [] []).node.children[2]? =
      some (Node.Action "C" initData (.state .SUCCESS)) := by
  have h := (claim_C2_selector_tick d0 1 "Sel" initData
    [Node.Action "A" initData (.state .FAILURE), Node.Action "B" initData (.state .RUNNING),
     Node.Action "C" initData (.state .SUCCESS)] [] []).2.2 1 (by decide)
    (by decide) (by decide)
  constructor
  · rw [show (tickNode d0 1 exSel [] []).state =
      (tickNode d0 1 (.Selector "Sel" initData
        [Node.Action "A" initData (.state .FAILURE),
         Node.Action "B" initData (.state .RUNNING),
         Node.Action "C" initData (.state .SUCCESS)]) [] []).state from rfl, h.1]
    decide
  · rw [show (tickNode d0 1 exSel [] []).node =
      (tickNode d0 1 (.Selector "Sel" initData
        [Node.Action "A" initData (.state .FAILURE),
         Node.Action "B" initData (.state .RUNNING),
         Node.Action "C" initData (.state .SUCCESS)]) [] []).node from rfl,
      h.2.1 2 (by omega)]
    rfl

/-- C3: a RUNNING child freezes the Sequence cursor at that child, the
Sequence returns RUNNING, and the next tick resumes there without re-ticking
or re-registering the children before the cursor; concretely, for
Sequence[A(SUCCESS), B(RUNNING)] the first engine tick returns RUNNING with
A, B executed (exec_index 1 and 2), and the second tick re-executes only B
among the children (A keeps its tick-1 result, exec_index reset to 0). -/
theorem claim_C3_sequence_running_freeze (dur : Nat → Nat) (tid : Nat) (nm : String)
    (d : NodeData) (idx : Nat) (cs : List Node) (p : Path) (reg : List Path) :
    (∀ (hidx : idx < cs.length), evalNode (cs.get ⟨idx, hidx⟩) = .RUNNING →
      tickNode dur tid (.Sequence nm d idx cs) p reg =
        ⟨.Sequence nm
           (finish_data tid .RUNNING
             (tickNode dur tid (cs.get ⟨idx, hidx⟩) (p ++ [idx]) reg).reg.length
             (dur (tickNode dur tid (cs.get ⟨idx, hidx⟩) (p ++ [idx]) reg).reg.length) d) idx
           (cs.set idx (tickNode dur tid (cs.get ⟨idx, hidx⟩) (p ++ [idx]) reg).node),
         .RUNNING, (tickNode dur tid (cs.get ⟨idx, hidx⟩) (p ++ [idx]) reg).reg ++ [p]⟩) ∧
    (idx ≤ cs.length →
      (tickNode dur tid (.Sequence nm d idx cs) p reg).node.children.take idx =
        cs.take idx ∧
      (∀ q ∈ (tickNode dur tid (.Sequence nm d idx cs) p reg).reg,
        q ∈ reg ∨ q = p ∨ ∃ u s, q = p ++ u :: s ∧ idx ≤ u)) ∧
    ((btTick d0 exSys).2 = .RUNNING ∧
     (btTick d0 exSys).1.bt_executed = [[0], [1], []] ∧
     (dataAt (btTick d0 exSys).1.tree [0]).exec_index = 1 ∧
     (dataAt (btTick d0 exSys).1.tree [1]).exec_index = 2 ∧
     (getNode (btTick d0 exSys).1.tree []).seqIndex = 1 ∧
     (btTick d0 (btTick d0 exSys).1).2 = .RUNNING ∧
     (btTick d0 (btTick d0 exSys).1).1.bt_executed = [[1], []] ∧
     (dataAt (btTick d0 (btTick d0 exSys).1).1.tree [0]).exec_index = 0 ∧
     (dataAt (btTick d0 (btTick d0 exSys).1).1.tree [0]).last_tick_id = 1 ∧
     (dataAt (btTick d0 (btTick d0 exSys).1).1.tree [0]).last_state = some .SUCCESS) := by
  refine ⟨?_, ?_, ?_⟩
  · intro hidx hev
    exact seq_tick_run dur tid nm d idx cs p reg hidx hev
  · intro h
    exact seq_tick_prefix_untouched dur tid nm d idx cs p reg h
  · decide

/-- C3 witness: concrete freeze of the cursor at a RUNNING child (cursor 1,
as after A has already succeeded). -/
theorem claim_C3_sequence_running_freeze_witness :
    (tickNode d0 1 (.Sequence "S" initData 1
      [Node.Action "A" initData (.state .SUCCESS),
       Node.Action "B" initData (.state .RUNNING)]) [] []).state = .RUNNING ∧
    (tickNode d0 1 (.Sequence "S" initData 1
      [Node.Action "A" initData (.state .SUCCESS),
       Node.Action "B" initData (.state .RUNNING)]) [] []).node.seqIndex = 1 := by
  have h2 := (claim_C3_sequence_running_freeze d0 1 "S" initData 1
    [Node.Action "A" initData (.state .SUCCESS),
     Node.Action "B" initData (.state .RUNNING)] [] []).1 (by decide) (by decide)
  constructor
  · rw [h2]
  · rw [h2]
    rfl

/-- C6: with no root, `tick()` returns FAILURE, the executed-node list is
empty and the snapshot is absent; the snapshot is also absent before the
first tick. -/
theorem claim_C6_no_root_tick :
    (∀ (t : Node) (b : Bool), GetSnapshot (mkSystem t b) = none) ∧
    (∀ (dur : Nat → Nat) (s : BTSystem), s.hasRoot = false →
      (btTick dur s).2 = .FAILURE ∧
      GetExecutedNodesLastTick (btTick dur s).1 = [] ∧
      GetSnapshot (btTick dur s).1 = none) := by
  constructor
  · intro t b
    rfl
  · intro dur s h
    rw [btTick_eq_noRoot dur s h]
    exact ⟨rfl, rfl, rfl⟩

/-- C6 witness: a concrete rootless tick. -/
theorem claim_C6_no_root_tick_witness :
    (btTick d0 (mkSystem exTree false)).2 = .FAILURE ∧
    GetExecutedNodesLastTick (btTick d0 (mkSystem exTree false)).1 = [] ∧
    GetSnapshot (btTick d0 (mkSystem exTree false)).1 = none :=
  claim_C6_no_root_tick.2 d0 (mkSystem exTree false) rfl

/-- C8: an Action whose work operation returns a value outside the NodeState
domain has that result coerced to FAILURE, returned (and recorded in
`last_state`) as an ordinary NodeState through the normal completion path —
nothing is propagated as an exception. -/
theorem claim_C8_invalid_action_result (dur : Nat → Nat) (tid : Nat) (nm : String)
    (d : NodeData) (v : PyVal) (p : Path) (reg : List Path)
    (h : ∀ s0 : NodeState, v ≠ .state s0) :
    (tickNode dur tid (.Action nm d v) p reg).state = .FAILURE ∧
    (tickNode dur tid (.Action nm d v) p reg).node =
      .Action nm (finish_data tid .FAILURE reg.length (dur reg.length) d) v ∧
    (tickNode dur tid (.Action nm d v) p reg).reg = reg ++ [p] := by
  cases v with
  | state s0 => exact absurd rfl (h s0)
  | intVal n => rw [tickNode_act]; exact ⟨rfl, rfl, rfl⟩
  | noneVal => rw [tickNode_act]; exact ⟨rfl, rfl, rfl⟩
  | strVal s1 => rw [tickNode_act]; exact ⟨rfl, rfl, rfl⟩

/-- C8 witness: an Action returning Python `None` fails in the ordinary way. -/
theorem claim_C8_invalid_action_result_witness :
    (tickNode d0 1 (.Action "X" initData .noneVal) [] []).state = .FAILURE ∧
    (tickNode d0 1 (.Action "X" initData .noneVal) [] []).reg = [[]] := by
  have h := claim_C8_invalid_action_result d0 1 "X" initData .noneVal [] []
    (fun s0 hne => by cases hne)
  exact ⟨h.1, by rw [h.2.2]; rfl⟩

/-- C9: a rootless `tick()` is not a pure no-op: the global tick counter is
still incremented, every node registered during the previous tick gets
`is_active_path`/`exec_index` reset, the registry is cleared, and the
previously published snapshot is discarded. -/
theorem claim_C9_no_root_state_effects (dur : Nat → Nat) (s : BTSystem)
    (h : s.hasRoot = false) :
    (btTick dur s).1.tick_id = s.tick_id + 1 ∧
    (∀ q ∈ s.registry, validPath s.tree q →
      (dataAt (btTick dur s).1.tree q).exec_index = 0 ∧
      (dataAt (btTick dur s).1.tree q).is_active_path = false) ∧
    (btTick dur s).1.registry = [] ∧
    (btTick dur s).1.bt_executed = [] ∧
    (btTick dur s).1.last_snapshot = none := by
  rw [btTick_eq_noRoot dur s h]
  refine ⟨rfl, ?_, rfl, rfl, rfl⟩
  intro q hmem hv
  show (dataAt (begin_new_tick s).tree q).exec_index = 0 ∧
    (dataAt (begin_new_tick s).tree q).is_active_path = false
  rw [begin_tree, dataAt_resetFold s.registry s.tree q hv]
  simp [hmem, clearExec]

/-- C9 witness: after a real tick, clearing the root and ticking again still
resets the previously executed nodes and discards the snapshot. -/
theorem claim_C9_no_root_state_effects_witness :
    (btTick d0 exSysNoRoot).1.tick_id = 2 ∧
    (dataAt (btTick d0 exSysNoRoot).1.tree [0]).exec_index = 0 ∧
    (btTick d0 exSysNoRoot).1.last_snapshot = none := by
  have h := claim_C9_no_root_state_effects d0 exSysNoRoot rfl
  refine ⟨h.1, ?_, h.2.2.2.2⟩
  exact (h.2.1 [0] (by decide) (by decide)).1

/-- C10: the invalid-result check in `Action.tick` is an `isinstance` test,
not a numeric comparison: a plain integer 1, 2 or 3 — numerically equal to
SUCCESS, FAILURE, RUNNING respectively — is still coerced to FAILURE. -/
theorem claim_C10_plain_int_result (dur : Nat → Nat) (tid : Nat) (nm : String)
    (d : NodeData) (p : Path) (reg : List Path) (n : Int)
    (h : n = 1 ∨ n = 2 ∨ n = 3) :
    NodeState.toInt .SUCCESS = 1 ∧ NodeState.toInt .FAILURE = 2 ∧
    NodeState.toInt .RUNNING = 3 ∧
    (tickNode dur tid (.Action nm d (.intVal n)) p reg).state = .FAILURE ∧
    (tickNode dur tid (.Action nm d (.intVal n)) p reg).node.data.last_state =
      some .FAILURE := by
  refine ⟨rfl, rfl, rfl, ?_, ?_⟩
  · rw [tickNode_act]
  · rw [tickNode_act]
    rfl

/-- C10 witness: an Action returning the plain int 1 (numerically SUCCESS)
fails. -/
theorem claim_C10_plain_int_result_witness :
    (tickNode d0 1 (.Action "X" initData (.intVal 1)) [] []).state = .FAILURE :=
  (claim_C10_plain_int_result d0 1 "X" initData [] [] 1 (Or.inl rfl)).2.2.2.1

/-- C4: after any single tick of a reachable system, the k-th node of the
executed-nodes registry (completion order) carries `exec_index = k + 1` and
`is_active_path = true` — the exec_index values form the contiguous sequence
1..N in the exact completion order — and every node not executed this tick
has `exec_index = 0` and `is_active_path = false`, for every tree shape. -/
theorem claim_C4_exec_index_contiguous (dur : Nat → Nat) (s : BTSystem)
    (h : Reachable s) :
    (∀ (k : Nat) (q : Path), (btTick dur s).1.registry[k]? = some q →
      validPath (btTick dur s).1.tree q ∧
      (dataAt (btTick dur s).1.tree q).exec_index = k + 1 ∧
      (dataAt (btTick dur s).1.tree q).is_active_path = true) ∧
    (∀ q, validPath (btTick dur s).1.tree q → q ∉ (btTick dur s).1.registry →
      (dataAt (btTick dur s).1.tree q).exec_index = 0 ∧
      (dataAt (btTick dur s).1.tree q).is_active_path = false) :=
  btTick_inv dur s (reachable_inv h)

/-- C4 witness: the example system's first tick, checked on nodes A and B. -/
theorem claim_C4_exec_index_contiguous_witness :
    (dataAt (btTick d0 exSys).1.tree [0]).exec_index = 1 ∧
    (dataAt (btTick d0 exSys).1.tree [1]).exec_index = 2 := by
  have h := claim_C4_exec_index_contiguous d0 exSys
    (Reachable.init exTree true (by decide))
  exact ⟨(h.1 0 [0] (by rfl)).2.1, (h.1 1 [1] (by rfl)).2.1⟩

/-- C7: after a rooted tick, the ordered node sequence of the published
snapshot equals the executed-nodes list mapped node-by-node to the per-node
record captured at tick completion (name, node_type, state string, duration,
ids) — the sort by exec_index inside the builder is a no-op because the
collected records are already in strictly increasing exec_index order. -/
theorem claim_C7_snapshot_roundtrip (dur : Nat → Nat) (s : BTSystem)
    (h : Reachable s) (hr : s.hasRoot = true) :
    ∃ snap, GetSnapshot (btTick dur s).1 = some snap ∧
      snap.nodes = (GetExecutedNodesLastTick (btTick dur s).1).map
        (fun q => recordNode (btTick dur s).1.tick_id
          (getNode (btTick dur s).1.tree q)) ∧
      List.Chain' (fun a b => a.exec_index < b.exec_index) snap.nodes := by
  have hinv := btTick_inv dur s (reachable_inv h)
  have hsnap : GetSnapshot (btTick dur s).1 =
      some (buildSnap (btTick dur s).1.tick_id
        ((btTick dur s).1.registry.map
          (fun q => recordNode (btTick dur s).1.tick_id
            (getNode (btTick dur s).1.tree q)))) := by
    rw [btTick_eq_root dur s hr]
    rfl
  have hexec : GetExecutedNodesLastTick (btTick dur s).1 = (btTick dur s).1.registry := by
    rw [btTick_eq_root dur s hr]
    rfl
  have hrec : ∀ (k : Nat) (rec : NodeSnapshot),
      ((btTick dur s).1.registry.map
        (fun q => recordNode (btTick dur s).1.tick_id
          (getNode (btTick dur s).1.tree q)))[k]? = some rec →
      rec.exec_index = k + 1 := by
    intro k rec hk
    rw [List.getElem?_map] at hk
    cases hq : (btTick dur s).1.registry[k]? with
    | none => rw [hq] at hk; simp at hk
    | some q =>
        rw [hq] at hk
        simp at hk
        have := (hinv.1 k q hq).2.1
        rw [← hk]
        exact this
  have hchain : List.Chain' (fun a b => a.exec_index < b.exec_index)
      ((btTick dur s).1.registry.map
        (fun q => recordNode (btTick dur s).1.tick_id
          (getNode (btTick dur s).1.tree q))) := by
    rw [List.chain'_iff_get]
    intro i hi
    set l := (btTick dur s).1.registry.map
      (fun q => recordNode (btTick dur s).1.tick_id
        (getNode (btTick dur s).1.tree q)) with hl
    have h1 : l[i]? = some (l.get ⟨i, by omega⟩) := by
      rw [List.getElem?_eq_getElem (by omega)]
      rfl
    have h2 : l[i + 1]? = some (l.get ⟨i + 1, by omega⟩) := by
      rw [List.getElem?_eq_getElem (by omega)]
      rfl
    rw [hrec i _ h1, hrec (i + 1) _ h2]
    omega
  refine ⟨_, hsnap, ?_, ?_⟩
  · rw [hexec]
    exact buildSnap_nodes _ _ (hchain.imp (fun a b hab => Nat.le_of_lt hab))
  · rw [buildSnap_nodes _ _ (hchain.imp (fun a b hab => Nat.le_of_lt hab))]
    exact hchain

/-- C7 witness: the round trip checked on the example system's first tick. -/
theorem claim_C7_snapshot_roundtrip_witness :
    (GetSnapshot (btTick d0 exSys).1).map Snapshot.nodes =
      some ((GetExecutedNodesLastTick (btTick d0 exSys).1).map
        (fun q => recordNode (btTick d0 exSys).1.tick_id
          (getNode (btTick d0 exSys).1.tree q))) := by
  obtain ⟨snap, h1, h2, _⟩ := claim_C7_snapshot_roundtrip d0 exSys
    (Reachable.init exTree true (by decide)) rfl
  rw [h1]
  exact congrArg some h2

/-- C5 counterexample: in the engine's own execution `_build_snapshot` is
never invoked by `tick()`, so after the first tick the executed nodes "A"
(name path "S/A") and "B" (name path "S/B") — distinct name paths — both
still carry `path_id = 0`, and the published snapshot records all three
executed nodes under the same id 0: the claimed injectivity and the claimed
recording under a stable hash fail as stated. -/
theorem claim_C5_counterexample :
    pathStringAt exTree [] [0] ≠ pathStringAt exTree [] [1] ∧
    validPath (btTick d0 exSys).1.tree [0] ∧
    validPath (btTick d0 exSys).1.tree [1] ∧
    (dataAt (btTick d0 exSys).1.tree [0]).path_id =
      (dataAt (btTick d0 exSys).1.tree [1]).path_id ∧
    ((btTick d0 exSys).1.last_snapshot.map
      (fun sn => sn.nodes.map NodeSnapshot.path_id)) = some [0, 0, 0] := by
  refine ⟨by decide, by decide, by decide, by decide, by decide⟩

/-- C5 (amended): `path_id` starts at 0 and is assigned only by the
debugger's `_build_snapshot` traversal (never by `tick()`): on a fresh tree
that traversal stores the 64-bit hash of the slash-joined name path, a
repeated traversal leaves it unchanged, ticking any node (and any whole
`BehaviorTree.tick`, with or without root) never changes any node's
`path_id`, nodes with distinct name paths receive distinct `path_id`s
exactly when the hash does not collide on the two path strings, and a
snapshot record always carries the node's current `path_id` field. -/
theorem claim_C5_path_id_amended (h : String → Nat) (t : Node)
    (hf : fresh t = true) :
    (∀ q, validPath t q →
      (dataAt (assignPathIds h t []) q).path_id = hash64 h (pathStringAt t [] q)) ∧
    (∀ q, validPath t q →
      (dataAt (assignPathIds h (assignPathIds h t []) []) q).path_id =
        (dataAt (assignPathIds h t []) q).path_id) ∧
    (∀ (dur : Nat → Nat) (tid : Nat) (t' : Node) (p : Path) (reg : List Path)
      (q : Path), validPath t' q →
      (dataAt (tickNode dur tid t' p reg).node q).path_id = (dataAt t' q).path_id) ∧
    (∀ (dur : Nat → Nat) (s : BTSystem) (q : Path), validPath s.tree q →
      (dataAt (btTick dur s).1.tree q).path_id = (dataAt s.tree q).path_id) ∧
    (∀ q1 q2, validPath t q1 → validPath t q2 →
      hash64 h (pathStringAt t [] q1) ≠ hash64 h (pathStringAt t [] q2) →
      (dataAt (assignPathIds h t []) q1).path_id ≠
        (dataAt (assignPathIds h t []) q2).path_id) ∧
    (∀ (tid : Nat) (n : Node), (recordNode tid n).path_id = n.data.path_id) := by
  have hfirst : ∀ q, validPath t q →
      (dataAt (assignPathIds h t []) q).path_id = hash64 h (pathStringAt t [] q) := by
    intro q hv
    rw [dataAt_assign h q t [] hv, fresh_dataAt t hf q hv]
    rw [if_pos (show initData.path_id = 0 from rfl)]
  refine ⟨hfirst, ?_, ?_, ?_, ?_, ?_⟩
  · intro q hv
    have hv1 : validPath (assignPathIds h t []) q :=
      (validPath_iff_of_strip (strip_assign h t []) q).mpr hv
    rw [dataAt_assign h q (assignPathIds h t []) [] hv1]
    by_cases hz : (dataAt (assignPathIds h t []) q).path_id = 0
    · rw [if_pos hz]
      show hash64 h (pathStringAt (assignPathIds h t []) [] q) = _
      rw [pathStringAt_of_strip q (assignPathIds h t []) t [] (strip_assign h t [])]
      rw [hfirst q hv]
    · rw [if_neg hz]
  · intro dur tid t' p reg q hv
    exact tickNode_path_id dur tid t' p reg q hv
  · intro dur s q hv
    exact btTick_path_id dur s q hv
  · intro q1 q2 hv1 hv2 hne
    rw [hfirst q1 hv1, hfirst q2 hv2]
    exact hne
  · intro tid n
    rfl

/-- C5 witness: the amended statement, instantiated on the example tree with
a concrete hash. -/
theorem claim_C5_path_id_amended_witness :
    (dataAt (assignPathIds hLen exTree []) [0]).path_id =
      hash64 hLen (pathStringAt exTree [] [0]) ∧
    (dataAt (assignPathIds hLen exTree []) []).path_id ≠
      (dataAt (assignPathIds hLen exTree []) [0]).path_id := by
  have h := claim_C5_path_id_amended hLen exTree (by decide)
  refine ⟨h.1 [0] (by decide), ?_⟩
  exact h.2.2.2.2.1 [] [0] (by decide) (by decide) (by decide)

end BT
